import Mathlib

/-!
# Verification of the region-compositing attention core of sd-forge-couple

Shallow embedding of `lib_couple/attention_couple.py` and
`lib_couple/performance_optimizations.py`.

Tensors are embedded as nested lists of rationals: a 3-D tensor of shape
(batch, tokens, channels) is a `List (List (List ℚ))`, outermost dimension
first.  Stateful Python objects (the tensor pool, the attention cache, the
memory manager) become Lean structures with explicit state passing; Python
object aliasing relevant to the cache claims is made explicit through a
small heap of numbered cells.

The helper module `attention_masks.py` (`lcm_for_list`, `get_mask`) is
imported by `attention_couple.py` but is not part of the sources examined
here; those two functions are modelled from the specification and are
marked as such in their doc comments.
-/

attribute [local semireducible] Rat.add Rat.mul Rat.inv Rat.sub

/-! ## Basic tensor embedding -/

/-- A 2-D tensor (tokens × channels): one batch row of a 3-D tensor. -/
abbrev Mat : Type := List (List ℚ)

/-- A 3-D tensor (batch × tokens × channels). -/
abbrev Tensor3 : Type := List Mat

/-- A 2-D grid (height × width), used for spatial masks. -/
abbrev Grid : Type := List (List ℚ)

/-- `t.shape[1]` of a 3-D tensor: token length of the first batch row. -/
def dim1 (t : Tensor3) : ℕ := (t.headD []).length

/-- `t.shape[2]` of a 3-D tensor: channel count of the first token row. -/
def dim2 (t : Tensor3) : ℕ := ((t.headD []).headD []).length

/-- An all-zero matrix with `r` token rows of `c` channels. -/
def zeroMat (r c : ℕ) : Mat := List.replicate r (List.replicate c (0 : ℚ))

/-- `m.repeat(1, r, 1)` restricted to one batch row: the token rows of `m`
tiled `r` times. -/
def tileTokens (r : ℕ) (m : Mat) : Mat := (List.replicate r m).flatten

/-- The slice `t[pos : pos + len]` along the batch dimension. -/
def sliceRows (t : Tensor3) (pos len : ℕ) : Tensor3 := (t.drop pos).take len

/-- Element-wise product of one batch row with one mask row of per-token
weights, the weight broadcast across the channel dimension
(`out * mask_downsample` restricted to matching batch indices). -/
def maskRow (w : List ℚ) (m : Mat) : Mat :=
  List.zipWith (fun c row => row.map (fun x => c * x)) w m

/-- `out[pos:pos+n] * mask_downsample`: batch rows multiplied pairwise with
the mask rows. -/
def mulMask (rows : Tensor3) (md : List (List ℚ)) : Tensor3 :=
  List.zipWith (fun m w => maskRow w m) rows md

/-- Pointwise sum of two batch rows (tokens × channels). -/
def matAdd (a b : Mat) : Mat := List.zipWith (List.zipWith (· + ·)) a b

/-- Sum of a nonempty list of batch rows (`[]` for an empty list). -/
def matListSum : List Mat → Mat
  | [] => []
  | x :: xs => xs.foldl matAdd x

/-- `.view(n, b, tokens, channels).sum(dim=0)` applied to `n * b` batch
rows: entry `bi` of the result is the sum over `r < n` of row `r * b + bi`. -/
def sumRegions (n b : ℕ) (rows : Tensor3) : Tensor3 :=
  (List.range b).map fun bi =>
    matListSum ((List.range n).map fun r => rows.getD (r * b + bi) [])

/-! ## `attention_masks.py` (absent from the examined sources) -/

/-- Modelled from the spec: `lcm_for_list` of `attention_masks.py`, the
least common multiple of a list of token lengths
(`L = lcm(tokens_1, …, tokens_N, key.tokenLength)`). -/
def lcm_for_list : List ℕ → ℕ
  | [] => 1
  | n :: rest => Nat.lcm n (lcm_for_list rest)

/-- Modelled from the spec: the target `(rows, cols)` of §4.3, derived from
the attention layer's token count and the shape metadata
(`scale = sqrt(h·w / tokens)`, target `(h / scale, w / scale)`). -/
def downsampleSize (numTokens h w : ℕ) : ℕ × ℕ :=
  let scale := Nat.sqrt (h * w / numTokens)
  if scale = 0 then (h, w) else (h / scale, w / scale)

/-- Modelled from the spec: deterministic nearest-style resampling of one
`srcH × srcW` mask to `rows × cols`. -/
def resampleNearest (m : Grid) (srcH srcW rows cols : ℕ) : Grid :=
  (List.range rows).map fun r =>
    (List.range cols).map fun c =>
      ((m.getD (r * srcH / rows) []).getD (c * srcW / cols) 0)

/-- Modelled from the spec: `get_mask` of `attention_masks.py`.  Each
region's mask of the stack is resampled to the `(rows, cols)` derived from
the token count and the `original_shape` metadata `[b, ch, h, w]`,
flattened to `rows·cols` per-token weights, and replicated `batchSize`
times along the batch axis, so that batch row `r·batchSize + b` of the
result carries region `r`'s weights. -/
def get_mask (mask : List Grid) (batchSize numTokens : ℕ) (originalShape : List ℕ) : List (List ℚ) :=
  let srcH := (mask.headD []).length
  let srcW := ((mask.headD []).headD []).length
  let size := downsampleSize numTokens (originalShape.getD 2 0) (originalShape.getD 3 0)
  mask.flatMap fun m =>
    List.replicate batchSize ((resampleNearest m srcH srcW size.1 size.2).flatten)

/-! ## `patch_unet`: mask coverage guard and normalization
(`attention_couple.py`, lines 42–62) -/

/-- Pointwise sum of two grids. -/
def addGrid (a b : Grid) : Grid := List.zipWith (List.zipWith (· + ·)) a b

/-- `mask.sum(dim=0)`: the pointwise sum of the stacked masks. -/
def stackSum : List Grid → Grid
  | [] => []
  | m :: ms => ms.foldl addGrid m

/-- `mask.sum(dim=0).min().item() <= 0.0`: some pixel of the summed stack
has non-positive total weight. -/
def coverageViolated (masks : List Grid) : Bool :=
  (stackSum masks).any fun row => row.any fun x => decide (x ≤ 0)

/-- `mask.div_(mask.sum(dim=0, keepdim=True))`: each region's mask divided
pointwise by the per-pixel total. -/
def normalizeStack (masks : List Grid) : List Grid :=
  let s := stackSum masks
  masks.map fun m => List.zipWith (List.zipWith (fun x t => x / t)) m s

/-- The mask stage of `AttentionCouple.patch_unet`: the guard at lines
55–58 rejects (returning `None` before any patch is installed, so the
composite operation aborts with no partial result), otherwise the stack is
normalized in place and sampling proceeds with it. -/
def patch_unet_mask (masks : List Grid) : Option (List Grid) :=
  if coverageViolated masks then none else some (normalizeStack masks)

/-! ## `attn2_patch`: the pre-attention rewrite
(`attention_couple.py`, lines 79–163) -/

/-- `torch.chunk(t, n, dim=0)`: `n` consecutive slices of size
`⌈len/n⌉` (all of equal size `len / n` when `n` divides `len`). -/
def tchunk (n : ℕ) (t : Tensor3) : List Tensor3 :=
  let cs := (t.length + n - 1) / n
  (List.range n).map fun i => (t.drop (i * cs)).take cs

/-- The concatenated conditioning buffer `conds_tensor` (lines 97–109):
for each additional region's embedding in order, `batchSize` batch rows
each holding the embedding tiled to `L` tokens. -/
def conds_tensor (conds : List Mat) (batchSize L : ℕ) : Tensor3 :=
  conds.flatMap fun c => List.replicate batchSize (tileTokens (L / c.length) c)

/-- The fill loop of lines 127–148 over `(role, q_chunk, k_chunk)`
triples: an unconditional chunk passes its query through and contributes
the token-tiled key chunk; a conditional chunk contributes the query chunk
repeated `numConds` times and the tiled key chunk followed by the
conditioning buffer. -/
def buildQK (numConds L tk : ℕ) (condsT : Tensor3) :
    List (ℕ × Tensor3 × Tensor3) → Tensor3 × Tensor3
  | [] => ([], [])
  | (r, qc, kc) :: rest =>
    let p := buildQK numConds L tk condsT rest
    let kt := kc.map (tileTokens (L / tk))
    if r = 1 then (qc ++ p.1, kt ++ p.2)
    else ((List.replicate numConds qc).flatten ++ p.1, (kt ++ condsT) ++ p.2)

/-- `attn2_patch(q, k, v)` with `k = v` (asserted in the source), the
role sequence `cond_or_uncond` supplied as `roles`, and the additional
regions' conditioning embeddings as `conds`.  Returns the pair
`(qs, ks)` fed to the attention primitive as `(qs, ks, ks)`; when the
expanded batch count is odd one all-zero row is appended to each
(lines 150–158). -/
def attn2_patch (conds : List Mat) (roles : List ℕ) (q k : Tensor3) : Tensor3 × Tensor3 :=
  let numChunks := roles.length
  let batchSize := q.length / numChunks
  let numConds := conds.length + 1
  let tk := dim1 k
  let L := lcm_for_list (conds.map List.length ++ [tk])
  let condsT := conds_tensor conds batchSize L
  let p := buildQK numConds L tk condsT (roles.zip ((tchunk numChunks q).zip (tchunk numChunks k)))
  if p.1.length % 2 = 1 then
    (p.1 ++ [zeroMat (dim1 q) (dim2 q)], p.2 ++ [zeroMat (tk * L / tk) (dim2 k)])
  else p

/-! ## `attn2_output_patch`: the post-attention recombination
(`attention_couple.py`, lines 165–188) -/

/-- The output walk of lines 175–188: starting at batch position `pos`,
an unconditional chunk contributes `out[pos : pos+batchSize]` unchanged;
a conditional chunk contributes the mask-weighted slice
`out[pos : pos+numConds·batchSize]` summed over the region axis. -/
def outWalk (numConds batchSize : ℕ) (md : List (List ℚ)) :
    List ℕ → ℕ → Tensor3 → Tensor3
  | [], _, _ => []
  | r :: rest, pos, out =>
    if r = 1 then
      sliceRows out pos batchSize ++ outWalk numConds batchSize md rest (pos + batchSize) out
    else
      sumRegions numConds batchSize (mulMask (sliceRows out pos (numConds * batchSize)) md)
        ++ outWalk numConds batchSize md rest (pos + numConds * batchSize) out

/-- `attn2_output_patch(out)` with the normalized mask stack, the batch
size recorded by the matching pre-attention call, the role sequence, and
the `original_shape` metadata. -/
def attn2_output_patch (numConds batchSize : ℕ) (mask : List Grid) (roles : List ℕ)
    (originalShape : List ℕ) (out : Tensor3) : Tensor3 :=
  let md := get_mask mask batchSize (dim1 out) originalShape
  outWalk numConds batchSize md roles 0 out

/-- The opaque attention primitive applied batch-row-wise:
`out[i] = attend(q[i], k[i])` (the primitive receives `v = k`). -/
def applyRowwise (f : Mat → Mat → Mat) (qs ks : Tensor3) : Tensor3 :=
  List.zipWith f qs ks

/-- Number of rows the expanded batch holds for a role sequence: an
unconditional chunk keeps `batchSize` rows, a conditional chunk expands to
`numConds · batchSize` rows. -/
def rolesRows (numConds batchSize : ℕ) (roles : List ℕ) : ℕ :=
  (roles.map fun r => if r = 1 then batchSize else numConds * batchSize).sum

/-- Offset of chunk `i` inside the expanded batch. -/
def rolesOffset (numConds batchSize : ℕ) (roles : List ℕ) (i : ℕ) : ℕ :=
  rolesRows numConds batchSize (roles.take i)

/-- The full composite of one sampling call: `patch_unet`'s mask stage,
the pre-attention rewrite, the opaque primitive applied row-wise, and the
post-attention recombination. -/
def fullComposite (f : Mat → Mat → Mat) (maskList : List Grid) (conds : List Mat)
    (roles : List ℕ) (originalShape : List ℕ) (q k : Tensor3) : Option Tensor3 :=
  match patch_unet_mask maskList with
  | none => none
  | some nm =>
    let batchSize := q.length / roles.length
    let p := attn2_patch conds roles q k
    some (attn2_output_patch (conds.length + 1) batchSize nm roles originalShape
      (applyRowwise f p.1 p.2))

/-! ## `performance_optimizations.py`: tensor pool
(lines 18–75) -/

/-- A pooled buffer: shape, storage location, element type (the latter two
as opaque numeric codes), and the flattened contents. -/
structure PBuf where
  shape : List ℕ
  dev : ℕ
  dt : ℕ
  data : List ℚ
deriving DecidableEq

/-- Number of elements of a shape. -/
def numel (shape : List ℕ) : ℕ := shape.foldl (· * ·) 1

/-- `torch.zeros(shape, device=device, dtype=dtype)`. -/
def freshZeros (shape : List ℕ) (dev dt : ℕ) : PBuf :=
  ⟨shape, dev, dt, List.replicate (numel shape) 0⟩

/-- `tensor.zero_()`: the contents zeroed in place. -/
def PBuf.zeroed (b : PBuf) : PBuf :=
  { b with data := b.data.map fun _ => 0 }

/-- The pool key `(tuple(tensor.shape), tensor.device, tensor.dtype)`. -/
def PBuf.key (b : PBuf) : List ℕ × ℕ × ℕ := (b.shape, b.dev, b.dt)

/-- `TensorPool`: a keyed free list plus counters. -/
structure TensorPool where
  pools : List ((List ℕ × ℕ × ℕ) × List PBuf)
  max_pool_size : ℕ
  allocation_count : ℕ
  reuse_count : ℕ
deriving DecidableEq

/-- A fresh pool (`TensorPool(max_pool_size=50)` by default). -/
def TensorPool.init (maxSize : ℕ) : TensorPool := ⟨[], maxSize, 0, 0⟩

/-- The free list stored for a key (`[]` when the key is absent). -/
def poolsGet (ps : List ((List ℕ × ℕ × ℕ) × List PBuf)) (key : List ℕ × ℕ × ℕ) : List PBuf :=
  ((ps.find? fun e => decide (e.1 = key)).map fun e => e.2).getD []

/-- Replace the free list stored for a key, inserting the key if absent. -/
def poolsSet (ps : List ((List ℕ × ℕ × ℕ) × List PBuf)) (key : List ℕ × ℕ × ℕ)
    (l : List PBuf) : List ((List ℕ × ℕ × ℕ) × List PBuf) :=
  if (ps.find? fun e => decide (e.1 = key)).isSome then
    ps.map fun e => if e.1 = key then (key, l) else e
  else ps ++ [(key, l)]

/-- `TensorPool.get_tensor` (lines 29–42): pop a pooled buffer for the key
and zero it, counting a reuse; otherwise allocate fresh zeros, counting an
allocation.  (`list.pop()` takes the most recently returned buffer.) -/
def TensorPool.get_tensor (p : TensorPool) (shape : List ℕ) (dev dt : ℕ) :
    PBuf × TensorPool :=
  match (poolsGet p.pools (shape, dev, dt)).getLast? with
  | some t =>
    (t.zeroed,
     { p with
        pools := poolsSet p.pools (shape, dev, dt) (poolsGet p.pools (shape, dev, dt)).dropLast,
        reuse_count := p.reuse_count + 1 })
  | none => (freshZeros shape dev dt, { p with allocation_count := p.allocation_count + 1 })

/-- `TensorPool.return_tensor` (lines 44–56): append the buffer to its
key's free list unless that list already holds `max_pool_size` buffers,
in which case the buffer is dropped. -/
def TensorPool.return_tensor (p : TensorPool) (t : PBuf) : TensorPool :=
  let l := poolsGet p.pools t.key
  if l.length < p.max_pool_size then
    { p with pools := poolsSet p.pools t.key (l ++ [t]) }
  else p

/-! ## `performance_optimizations.py`: attention cache
(lines 78–166)

Python tensors are reference values; to state the store-by-value claim the
heap is explicit: a tensor variable is an index into `Heap.cells`, and
`.clone()` is allocation of a fresh cell with copied contents.  Cache keys
(md5 strings in the source) are opaque numbers. -/

/-- The heap of tensor cells. -/
structure Heap where
  cells : List (List ℚ)
deriving DecidableEq

/-- Contents of cell `r`. -/
def Heap.read (h : Heap) (r : ℕ) : List ℚ := h.cells.getD r []

/-- In-place mutation of cell `r` (e.g. `tensor.zero_()` or caller-side
writes). -/
def Heap.write (h : Heap) (r : ℕ) (v : List ℚ) : Heap := ⟨h.cells.set r v⟩

/-- `.clone()` / fresh tensor: a new cell holding `v`. -/
def Heap.alloc (h : Heap) (v : List ℚ) : ℕ × Heap := (h.cells.length, ⟨h.cells ++ [v]⟩)

/-- `AttentionCache`: two insertion-ordered dictionaries from keys to heap
cells, plus hit/miss counters. -/
structure AttentionCache where
  mask_cache : List (ℕ × ℕ)
  conditioning_cache : List (ℕ × ℕ)
  max_cache_size : ℕ
  cache_hits : ℕ
  cache_misses : ℕ
deriving DecidableEq

/-- A fresh cache (`AttentionCache(max_cache_size=100)` by default). -/
def AttentionCache.init (maxSize : ℕ) : AttentionCache := ⟨[], [], maxSize, 0, 0⟩

/-- Python `dict` lookup: the value of the first (unique) matching key. -/
def dictGet (d : List (ℕ × ℕ)) (k : ℕ) : Option ℕ :=
  (d.find? fun e => decide (e.1 = k)).map fun e => e.2

/-- Python `dict` assignment: replace in place when the key exists
(keeping its insertion position), append otherwise. -/
def dictSet (d : List (ℕ × ℕ)) (k v : ℕ) : List (ℕ × ℕ) :=
  if (d.find? fun e => decide (e.1 = k)).isSome then
    d.map fun e => if e.1 = k then (k, v) else e
  else d ++ [(k, v)]

/-- `del cache[next(iter(cache))]` guarded by the capacity check: drop the
oldest-inserted entry when the dictionary is full. -/
def evictIfFull (d : List (ℕ × ℕ)) (maxSize : ℕ) : List (ℕ × ℕ) :=
  if maxSize ≤ d.length then d.drop 1 else d

/-- `AttentionCache.store_mask` (lines 115–125): evict if full, then store
`mask.clone()` — a fresh heap cell with copied contents. -/
def AttentionCache.store_mask (c : AttentionCache) (key srcRef : ℕ) (h : Heap) :
    AttentionCache × Heap :=
  ({ c with
      mask_cache :=
        dictSet (evictIfFull c.mask_cache c.max_cache_size) key (h.alloc (h.read srcRef)).1 },
   (h.alloc (h.read srcRef)).2)

/-- `AttentionCache.get_mask` (lines 104–113): on a hit the cached tensor
is returned as `.clone()`, i.e. by contents. -/
def AttentionCache.get_mask_cached (c : AttentionCache) (key : ℕ) (h : Heap) :
    Option (List ℚ) × AttentionCache :=
  match dictGet c.mask_cache key with
  | some r => (some (h.read r), { c with cache_hits := c.cache_hits + 1 })
  | none => (none, { c with cache_misses := c.cache_misses + 1 })

/-- `AttentionCache.store_conditioning` (lines 138–148): evict if full,
then store the caller's tensor reference itself — no `.clone()`. -/
def AttentionCache.store_conditioning (c : AttentionCache) (key srcRef : ℕ) :
    AttentionCache :=
  { c with conditioning_cache := dictSet (evictIfFull c.conditioning_cache c.max_cache_size) key srcRef }

/-- `AttentionCache.get_conditioning` (lines 127–136): on a hit the cached
reference is returned unchanged. -/
def AttentionCache.get_conditioning_cached (c : AttentionCache) (key : ℕ) :
    Option ℕ × AttentionCache :=
  match dictGet c.conditioning_cache key with
  | some r => (some r, { c with cache_hits := c.cache_hits + 1 })
  | none => (none, { c with cache_misses := c.cache_misses + 1 })

/-! ## `performance_optimizations.py`: memory manager
(lines 169–235).  The `active_tensors` weak-reference set tracks liveness
only and owns no modelled state. -/

/-- `MemoryManager`: the pool and cache behind one facade, plus the
periodic-cleanup operation counter. -/
structure MemoryManager where
  tensor_pool : TensorPool
  attention_cache : AttentionCache
  cleanup_threshold : ℕ
  operation_count : ℕ
deriving DecidableEq

/-- `MemoryManager.periodic_cleanup` (lines 198–212): increment the
operation counter; once it reaches the threshold, reset it to zero and
trigger a garbage-collection pass (which touches no modelled state: the
pool and cache hold strong references). -/
def MemoryManager.periodic_cleanup (m : MemoryManager) : MemoryManager :=
  let oc := m.operation_count + 1
  if m.cleanup_threshold ≤ oc then { m with operation_count := 0 }
  else { m with operation_count := oc }

/-! ## Auxiliary definitions used by the statements below -/

/-- Entry `(i, j)` of a grid (0 outside the grid). -/
def gridEntry (g : Grid) (i j : ℕ) : ℚ := (g.getD i []).getD j 0

/-- A grid of `H` rows and `W` columns (index-level shape regularity,
matching a rectangular tensor). -/
def regular (g : Grid) (H W : ℕ) : Prop :=
  g.length = H ∧ ∀ i, i < H → (g.getD i []).length = W

instance (g : Grid) (H W : ℕ) : Decidable (regular g H W) :=
  decidable_of_iff (g.length = H ∧ ∀ i, i < H → (g.getD i []).length = W) Iff.rfl

/-- The uniform `H × W` grid with constant value `v`. -/
def uniformGrid (H W : ℕ) (v : ℚ) : Grid :=
  List.replicate H (List.replicate W v)

/-- One acquire/release round trip on the pool for a fixed key. -/
def poolCycle (p : TensorPool) (shape : List ℕ) (dev dt : ℕ) : TensorPool :=
  let r := p.get_tensor shape dev dt
  r.2.return_tensor r.1

/-- `n` acquire/release round trips for the key `([4], 0, 0)`, starting
from an empty pool with the default capacity 50. -/
def poolAfterCycles : ℕ → TensorPool
  | 0 => TensorPool.init 50
  | n + 1 => poolCycle (poolAfterCycles n) [4] 0 0

/-! ## Theorems -/

/-- C10: `periodic_cleanup` leaves the tensor pool (its pooled buffers and
allocation/reuse counters) and the attention cache (both families' entries
and the hit/miss counters) unchanged regardless of whether the threshold
is crossed; the only field it changes is the operation counter, which is
incremented and reset to 0 when it reaches the threshold. -/
theorem periodic_cleanup_frame (m : MemoryManager) :
    (m.periodic_cleanup).tensor_pool = m.tensor_pool ∧
    (m.periodic_cleanup).attention_cache = m.attention_cache ∧
    (m.periodic_cleanup).cleanup_threshold = m.cleanup_threshold ∧
    (m.periodic_cleanup).tensor_pool.pools = m.tensor_pool.pools ∧
    (m.periodic_cleanup).tensor_pool.allocation_count = m.tensor_pool.allocation_count ∧
    (m.periodic_cleanup).tensor_pool.reuse_count = m.tensor_pool.reuse_count ∧
    (m.periodic_cleanup).attention_cache.mask_cache = m.attention_cache.mask_cache ∧
    (m.periodic_cleanup).attention_cache.conditioning_cache = m.attention_cache.conditioning_cache ∧
    (m.periodic_cleanup).attention_cache.cache_hits = m.attention_cache.cache_hits ∧
    (m.periodic_cleanup).attention_cache.cache_misses = m.attention_cache.cache_misses ∧
    (m.periodic_cleanup).operation_count =
      (if m.cleanup_threshold ≤ m.operation_count + 1 then 0 else m.operation_count + 1) := by
  unfold MemoryManager.periodic_cleanup
  by_cases h : m.cleanup_threshold ≤ m.operation_count + 1
  · simp [h]
  · simp [h]

/-- C6: the common length computed by `lcm_for_list` is divisible by every
listed token length, it is the least such common multiple, and for token
lengths 3 and 5 with native key length 4 it equals 60, which each of 3, 5
and 4 divides. -/
theorem lcm_reconciliation :
    (∀ (ns : List ℕ), ∀ t ∈ ns, t ∣ lcm_for_list ns) ∧
    (∀ (ns : List ℕ) (m : ℕ), (∀ t ∈ ns, t ∣ m) → lcm_for_list ns ∣ m) ∧
    lcm_for_list [3, 5, 4] = 60 ∧
    60 % 3 = 0 ∧ 60 % 5 = 0 ∧ 60 % 4 = 0 := by
  refine ⟨?_, ?_, by decide, by decide, by decide, by decide⟩
  · intro ns
    induction ns with
    | nil => intro t ht; cases ht
    | cons n rest ih =>
      intro t ht
      rcases List.mem_cons.mp ht with h | h
      · subst h; exact Nat.dvd_lcm_left _ _
      · exact dvd_trans (ih t h) (Nat.dvd_lcm_right _ _)
  · intro ns
    induction ns with
    | nil => intro m _; exact one_dvd m
    | cons n rest ih =>
      intro m hm
      exact Nat.lcm_dvd (hm n (List.mem_cons_self n rest))
        (ih m fun t ht => hm t (List.mem_cons_of_mem n ht))

/-- Witness for `lcm_reconciliation` at the token lengths of the claim. -/
theorem lcm_reconciliation_witness :
    (3 ∣ lcm_for_list [3, 5, 4]) ∧ lcm_for_list [3, 5, 4] ∣ 60 :=
  ⟨lcm_reconciliation.1 [3, 5, 4] 3 (by decide),
   lcm_reconciliation.2.1 [3, 5, 4] 60 (by decide)⟩

/-- C8: `get_tensor` always hands out an all-zero buffer; on a non-empty
free list for the key it increments the reuse counter and leaves the
allocation counter alone, on an empty free list it increments the
allocation counter and leaves the reuse counter alone; and ten
acquire/release round trips on one key starting from an empty pool,
followed by one more acquire, report exactly 1 allocation and 10 reuses. -/
theorem tensor_pool_accounting (p : TensorPool) (shape : List ℕ) (dev dt : ℕ) :
    (∀ x ∈ ((p.get_tensor shape dev dt).1).data, x = 0) ∧
    (poolsGet p.pools (shape, dev, dt) ≠ [] →
      (p.get_tensor shape dev dt).2.reuse_count = p.reuse_count + 1 ∧
      (p.get_tensor shape dev dt).2.allocation_count = p.allocation_count) ∧
    (poolsGet p.pools (shape, dev, dt) = [] →
      (p.get_tensor shape dev dt).2.allocation_count = p.allocation_count + 1 ∧
      (p.get_tensor shape dev dt).2.reuse_count = p.reuse_count) ∧
    ((poolAfterCycles 10).get_tensor [4] 0 0).2.allocation_count = 1 ∧
    ((poolAfterCycles 10).get_tensor [4] 0 0).2.reuse_count = 10 := by
  refine ⟨?_, ?_, ?_, by decide, by decide⟩
  · intro x hx
    unfold TensorPool.get_tensor at hx
    rcases h : (poolsGet p.pools (shape, dev, dt)).getLast? with _ | t
    · rw [h] at hx
      exact List.eq_of_mem_replicate hx
    · rw [h] at hx
      simp only [PBuf.zeroed, List.mem_map] at hx
      rcases hx with ⟨y, _, hy⟩
      exact hy.symm
  · intro hne
    have h : ∃ t, (poolsGet p.pools (shape, dev, dt)).getLast? = some t := by
      rcases hl : (poolsGet p.pools (shape, dev, dt)).getLast? with _ | t
      · exact absurd (List.getLast?_eq_none_iff.mp hl) hne
      · exact ⟨t, rfl⟩
    rcases h with ⟨t, ht⟩
    unfold TensorPool.get_tensor
    rw [ht]
    exact ⟨rfl, rfl⟩
  · intro he
    unfold TensorPool.get_tensor
    rw [he]
    simp

/-- Witness for `tensor_pool_accounting`: a reuse on a pool holding one
returned buffer. -/
theorem tensor_pool_accounting_witness :
    (((TensorPool.init 50).return_tensor (freshZeros [4] 0 0)).get_tensor [4] 0 0).2.reuse_count =
      ((TensorPool.init 50).return_tensor (freshZeros [4] 0 0)).reuse_count + 1 :=
  ((tensor_pool_accounting ((TensorPool.init 50).return_tensor (freshZeros [4] 0 0))
      [4] 0 0).2.1 (by decide)).1

/-! ### Grid lemmas for the mask stage -/

theorem regular_addGrid {a b : Grid} {H W : ℕ} (ha : regular a H W) (hb : regular b H W) :
    regular (addGrid a b) H W := by
  obtain ⟨ha1, ha2⟩ := ha
  obtain ⟨hb1, hb2⟩ := hb
  constructor
  · simp [addGrid, List.length_zipWith, ha1, hb1]
  · intro i hi
    have hia : i < a.length := by omega
    have hib : i < b.length := by omega
    have hiz : i < (addGrid a b).length := by
      simp [addGrid, List.length_zipWith, ha1, hb1]; omega
    rw [List.getD_eq_getElem _ _ hiz]
    simp only [addGrid, List.getElem_zipWith]
    rw [List.length_zipWith]
    rw [← List.getD_eq_getElem a [] hia, ← List.getD_eq_getElem b [] hib]
    rw [ha2 i hi, hb2 i hi]
    omega

theorem gridEntry_addGrid {a b : Grid} {H W : ℕ} (ha : regular a H W) (hb : regular b H W)
    {i : ℕ} (hi : i < H) (j : ℕ) :
    gridEntry (addGrid a b) i j = gridEntry a i j + gridEntry b i j := by
  obtain ⟨ha1, ha2⟩ := ha
  obtain ⟨hb1, hb2⟩ := hb
  have hia : i < a.length := by omega
  have hib : i < b.length := by omega
  have hiz : i < (addGrid a b).length := by
    simp [addGrid, List.length_zipWith, ha1, hb1]; omega
  unfold gridEntry
  rw [List.getD_eq_getElem _ _ hiz]
  simp only [addGrid, List.getElem_zipWith]
  rw [← List.getD_eq_getElem a [] hia, ← List.getD_eq_getElem b [] hib]
  by_cases hj : j < W
  · have hja : j < (a.getD i []).length := by rw [ha2 i hi]; exact hj
    have hjb : j < (b.getD i []).length := by rw [hb2 i hi]; exact hj
    have hjz : j < (List.zipWith (· + ·) (a.getD i []) (b.getD i [])).length := by
      rw [List.length_zipWith]; omega
    rw [List.getD_eq_getElem _ _ hjz, List.getElem_zipWith,
      List.getD_eq_getElem _ _ hja, List.getD_eq_getElem _ _ hjb]
  · have hja : (a.getD i []).length ≤ j := by rw [ha2 i hi]; omega
    have hjb : (b.getD i []).length ≤ j := by rw [hb2 i hi]; omega
    have hjz : (List.zipWith (· + ·) (a.getD i []) (b.getD i [])).length ≤ j := by
      rw [List.length_zipWith]; omega
    rw [List.getD_eq_default _ _ hja, List.getD_eq_default _ _ hjb,
      List.getD_eq_default _ _ hjz]
    norm_num

theorem regular_foldl_addGrid {H W : ℕ} :
    ∀ (ms : List Grid) (acc : Grid), regular acc H W → (∀ m ∈ ms, regular m H W) →
      regular (ms.foldl addGrid acc) H W := by
  intro ms
  induction ms with
  | nil => intro acc hacc _; exact hacc
  | cons m rest ih =>
    intro acc hacc hms
    simp only [List.foldl_cons]
    exact ih (addGrid acc m) (regular_addGrid hacc (hms m (List.mem_cons_self m rest)))
      fun x hx => hms x (List.mem_cons_of_mem m hx)

theorem regular_stackSum {masks : List Grid} {H W : ℕ} (hne : masks ≠ [])
    (hreg : ∀ m ∈ masks, regular m H W) : regular (stackSum masks) H W := by
  cases masks with
  | nil => exact absurd rfl hne
  | cons m ms =>
    exact regular_foldl_addGrid ms m (hreg m (List.mem_cons_self m ms))
      fun x hx => hreg x (List.mem_cons_of_mem m hx)

theorem gridEntry_foldl_addGrid {H W : ℕ} {i : ℕ} (hi : i < H) (j : ℕ) :
    ∀ (ms : List Grid) (acc : Grid), regular acc H W → (∀ m ∈ ms, regular m H W) →
      gridEntry (ms.foldl addGrid acc) i j =
        gridEntry acc i j + (ms.map fun m => gridEntry m i j).sum := by
  intro ms
  induction ms with
  | nil => intro acc _ _; simp
  | cons m rest ih =>
    intro acc hacc hms
    simp only [List.foldl_cons, List.map_cons, List.sum_cons]
    rw [ih (addGrid acc m) (regular_addGrid hacc (hms m (List.mem_cons_self m rest)))
      fun x hx => hms x (List.mem_cons_of_mem m hx)]
    rw [gridEntry_addGrid hacc (hms m (List.mem_cons_self m rest)) hi j]
    ring

theorem gridEntry_stackSum {masks : List Grid} {H W : ℕ} (hne : masks ≠ [])
    (hreg : ∀ m ∈ masks, regular m H W) {i : ℕ} (hi : i < H) (j : ℕ) :
    gridEntry (stackSum masks) i j = (masks.map fun m => gridEntry m i j).sum := by
  cases masks with
  | nil => exact absurd rfl hne
  | cons m ms =>
    show gridEntry (ms.foldl addGrid m) i j = _
    rw [gridEntry_foldl_addGrid hi j ms m (hreg m (List.mem_cons_self m ms))
      fun x hx => hreg x (List.mem_cons_of_mem m hx)]
    simp

/-- C4: a mask stack in which some pixel has non-positive total weight
across all regions is rejected by `patch_unet` before normalization: the
mask stage returns `None` (the source logs an error, returns the stacking
buffer to the pool and returns `None` at lines 55–58, so no patch is
installed and no partial result is produced). -/
theorem coverage_guard (masks : List Grid) (H W i j : ℕ)
    (hreg : ∀ m ∈ masks, regular m H W) (hne : masks ≠ [])
    (hi : i < H) (hj : j < W)
    (hle : (masks.map fun m => gridEntry m i j).sum ≤ 0) :
    patch_unet_mask masks = none := by
  have hs := regular_stackSum hne hreg
  have hentry : gridEntry (stackSum masks) i j ≤ 0 := by
    rw [gridEntry_stackSum hne hreg hi j]; exact hle
  have hviol : coverageViolated masks = true := by
    unfold coverageViolated
    rw [List.any_eq_true]
    have hrow : i < (stackSum masks).length := by rw [hs.1]; exact hi
    have hjW : j < ((stackSum masks).getD i []).length := by rw [hs.2 i hi]; exact hj
    refine ⟨(stackSum masks).getD i [], ?_, ?_⟩
    · rw [List.getD_eq_getElem _ _ hrow]; exact List.getElem_mem hrow
    · rw [List.any_eq_true]
      refine ⟨((stackSum masks).getD i []).getD j 0, ?_, ?_⟩
      · rw [List.getD_eq_getElem _ _ hjW]; exact List.getElem_mem hjW
      · unfold gridEntry at hentry
        exact decide_eq_true hentry
  unfold patch_unet_mask
  rw [hviol]
  rfl

/-- Witness for `coverage_guard`: a single all-zero 1×1 mask is rejected. -/
theorem coverage_guard_witness : patch_unet_mask [[[(0 : ℚ)]]] = none :=
  coverage_guard [[[(0 : ℚ)]]] 1 1 0 0 (by decide) (by decide) (by decide) (by decide)
    (by norm_num [gridEntry])

theorem gridEntry_divGrid {m s : Grid} {H W : ℕ} (hm : regular m H W) (hs : regular s H W)
    {i j : ℕ} (hi : i < H) (hj : j < W) :
    gridEntry (List.zipWith (List.zipWith (fun x t => x / t)) m s) i j =
      gridEntry m i j / gridEntry s i j := by
  obtain ⟨hm1, hm2⟩ := hm
  obtain ⟨hs1, hs2⟩ := hs
  have him : i < m.length := by omega
  have his : i < s.length := by omega
  have hiz : i < (List.zipWith (List.zipWith fun x t => x / t) m s).length := by
    rw [List.length_zipWith]; omega
  unfold gridEntry
  rw [List.getD_eq_getElem _ _ hiz]
  simp only [List.getElem_zipWith]
  rw [← List.getD_eq_getElem m [] him, ← List.getD_eq_getElem s [] his]
  have hjm : j < (m.getD i []).length := by rw [hm2 i hi]; exact hj
  have hjs : j < (s.getD i []).length := by rw [hs2 i hi]; exact hj
  have hjz : j < (List.zipWith (fun x t => x / t) (m.getD i []) (s.getD i [])).length := by
    rw [List.length_zipWith]; omega
  rw [List.getD_eq_getElem _ _ hjz, List.getElem_zipWith,
    List.getD_eq_getElem _ _ hjm, List.getD_eq_getElem _ _ hjs]

/-- C3: whenever `patch_unet`'s mask stage accepts a stack (so each pixel
has strictly positive total weight), the in-place normalization makes the
region weights sum to exactly 1 at every pixel. -/
theorem mask_normalization (masks : List Grid) (H W : ℕ)
    (hne : masks ≠ []) (hreg : ∀ m ∈ masks, regular m H W)
    (normd : List Grid) (hsome : patch_unet_mask masks = some normd)
    (i j : ℕ) (hi : i < H) (hj : j < W) :
    (normd.map fun m => gridEntry m i j).sum = 1 := by
  have hs := regular_stackSum hne hreg
  have hviol : coverageViolated masks = false := by
    by_contra hc
    have : coverageViolated masks = true := by
      cases h : coverageViolated masks
      · exact absurd h hc
      · rfl
    unfold patch_unet_mask at hsome
    rw [this] at hsome
    cases hsome
  have hnormd : normd = normalizeStack masks := by
    unfold patch_unet_mask at hsome
    rw [hviol] at hsome
    cases hsome
    rfl
  have hpos : 0 < gridEntry (stackSum masks) i j := by
    have hrow : i < (stackSum masks).length := by rw [hs.1]; exact hi
    have hjW : j < ((stackSum masks).getD i []).length := by rw [hs.2 i hi]; exact hj
    have hall := List.any_eq_false.mp hviol
    have hinner := hall ((stackSum masks).getD i [])
      (by rw [List.getD_eq_getElem _ _ hrow]; exact List.getElem_mem hrow)
    have hx := List.any_eq_false.mp (by
      cases h : ((stackSum masks).getD i []).any fun x => decide (x ≤ 0)
      · rfl
      · exact absurd h hinner)
    have hmem : ((stackSum masks).getD i []).getD j 0 ∈ (stackSum masks).getD i [] := by
      rw [List.getD_eq_getElem _ _ hjW]; exact List.getElem_mem hjW
    have := hx _ hmem
    unfold gridEntry
    simp only [decide_eq_true_eq] at this
    exact lt_of_not_le this
  subst hnormd
  simp only [normalizeStack, List.map_map]
  have hcomp : masks.map ((fun m => gridEntry m i j) ∘
      fun m => List.zipWith (List.zipWith fun x t => x / t) m (stackSum masks)) =
      masks.map fun m => gridEntry m i j * (gridEntry (stackSum masks) i j)⁻¹ := by
    apply List.map_congr_left
    intro m hm
    simp only [Function.comp]
    rw [gridEntry_divGrid (hreg m hm) hs hi hj, div_eq_mul_inv]
  rw [hcomp, List.sum_map_mul_right, ← gridEntry_stackSum hne hreg hi j]
  exact mul_inv_cancel₀ (ne_of_gt hpos)

/-- Witness for `mask_normalization`: two uniform 1×1 masks normalize to
weights that sum to 1. -/
theorem mask_normalization_witness :
    ((normalizeStack [[[(1 : ℚ)]], [[(1 : ℚ)]]]).map fun m => gridEntry m 0 0).sum = 1 :=
  mask_normalization [[[(1 : ℚ)]], [[(1 : ℚ)]]] 1 1 (by decide) (by decide)
    (normalizeStack [[[(1 : ℚ)]], [[(1 : ℚ)]]]) (by decide) 0 0 (by decide) (by decide)


/-! ### The conditioning buffer -/

theorem sum_map_const_nat {α : Type} (l : List α) (b : ℕ) :
    (l.map fun _ => b).sum = l.length * b := by
  induction l with
  | nil => simp
  | cons x rest ih => simp [ih, Nat.succ_mul, Nat.add_comm]

theorem tileTokens_length (r : ℕ) (m : Mat) :
    (tileTokens r m).length = r * m.length := by
  simp [tileTokens, List.length_flatten, List.map_replicate, List.sum_replicate, smul_eq_mul]

theorem flatMap_replicate_getD {α β : Type} (g : α → List β) (B : ℕ) :
    ∀ (l : List α) (i b : ℕ) (hi : i < l.length), b < B →
      (l.flatMap fun c => List.replicate B (g c)).getD (i * B + b) [] = g l[i] := by
  intro l
  induction l with
  | nil => intro i b hi _; cases hi
  | cons c rest ih =>
    intro i b hi hb
    cases i with
    | zero =>
      have hbl : b < (List.replicate B (g c)).length := by
        rw [List.length_replicate]; exact hb
      show ((List.replicate B (g c)) ++ (rest.flatMap fun x => List.replicate B (g x))).getD
          (0 * B + b) [] = _
      rw [Nat.zero_mul, Nat.zero_add, List.getD_append _ _ _ b hbl,
        List.getD_eq_getElem _ _ hbl, List.getElem_replicate]
      rfl
    | succ i2 =>
      have hlen : (List.replicate B (g c)).length ≤ (i2 + 1) * B + b := by
        rw [List.length_replicate, Nat.succ_mul]; omega
      show ((List.replicate B (g c)) ++ (rest.flatMap fun x => List.replicate B (g x))).getD
          ((i2 + 1) * B + b) [] = _
      rw [List.getD_append_right _ _ _ _ hlen]
      have harith : (i2 + 1) * B + b - (List.replicate B (g c)).length = i2 * B + b := by
        rw [List.length_replicate, Nat.succ_mul]; omega
      rw [harith]
      have hi2 : i2 < rest.length := by simpa using hi
      rw [ih i2 b hi2 hb]
      simp

/-- C5 (amended): the concatenated conditioning buffer built by
`attn2_patch` has `(N − 1) · batchSize` batch rows — one group of
`batchSize` rows per *additional* region, the base region not included —
each row holding `L` tokens of `ch` channels, obtained by repeating
additional region `i`'s embedding `batchSize` times along the batch axis
and `L / tokens_i` times along the token axis. -/
theorem conds_tensor_layout (conds : List Mat) (B L ch : ℕ)
    (hdvd : ∀ c ∈ conds, 0 < c.length ∧ c.length ∣ L)
    (hch : ∀ c ∈ conds, ∀ row ∈ c, row.length = ch) :
    (conds_tensor conds B L).length = conds.length * B ∧
    (∀ mat ∈ conds_tensor conds B L, mat.length = L ∧ ∀ row ∈ mat, row.length = ch) ∧
    (∀ i b, i < conds.length → b < B →
      (conds_tensor conds B L).getD (i * B + b) [] =
        tileTokens (L / (conds.getD i []).length) (conds.getD i [])) := by
  refine ⟨?_, ?_, ?_⟩
  · unfold conds_tensor
    rw [List.length_flatMap]
    have h2 : List.map (List.length ∘ fun c => List.replicate B (tileTokens (L / c.length) c)) conds
        = conds.map fun _ => B := by
      apply List.map_congr_left
      intro c _
      simp [Function.comp, List.length_replicate]
    rw [h2, sum_map_const_nat]
  · intro mat hmat
    rcases List.mem_flatMap.mp hmat with ⟨c, hc, hmem⟩
    have hmat2 : mat = tileTokens (L / c.length) c := (List.mem_replicate.mp hmem).2
    subst hmat2
    constructor
    · rw [tileTokens_length]
      exact Nat.div_mul_cancel (hdvd c hc).2
    · intro row hrow
      simp only [tileTokens, List.mem_flatten] at hrow
      rcases hrow with ⟨copy, hcopy, hrow2⟩
      have hcc : copy = c := (List.mem_replicate.mp hcopy).2
      rw [hcc] at hrow2
      exact hch c hc row hrow2
  · intro i b hi hb
    unfold conds_tensor
    rw [flatMap_replicate_getD (fun c => tileTokens (L / c.length) c) B conds i b hi hb,
      List.getD_eq_getElem conds [] hi]

/-- C5 counterexample: with one additional region, batch size 1 and
`L = 1`, the buffer holds 1 row, not the `N · batchSize = 2` rows the
claim states for the total region count `N = 2`. -/
theorem conds_tensor_row_count_counterexample :
    (conds_tensor [[[(1 : ℚ)]]] 1 1).length ≠ (List.length [[[(1 : ℚ)]]] + 1) * 1 := by
  decide

/-- Witness for `conds_tensor_layout` at one additional region. -/
theorem conds_tensor_layout_witness :
    (conds_tensor [[[(1 : ℚ)]]] 1 1).length = List.length [[[(1 : ℚ)]]] * 1 :=
  (conds_tensor_layout [[[(1 : ℚ)]]] 1 1 1 (by decide) (by decide)).1

/-! ### Cache aliasing -/

theorem find?_map_dictSet (k v : ℕ) :
    ∀ (d : List (ℕ × ℕ)), (d.find? fun e => decide (e.1 = k)).isSome →
      ((d.map fun e => if e.1 = k then (k, v) else e).find? fun e => decide (e.1 = k)) =
        some (k, v) := by
  intro d
  induction d with
  | nil => intro hs; cases hs
  | cons e rest ih =>
    intro hs
    by_cases he : e.1 = k
    · simp [List.find?_cons, he]
    · have hdec : (decide (e.1 = k)) = false := by simp [he]
      have hrest : (rest.find? fun x => decide (x.1 = k)).isSome := by
        rw [List.find?_cons, hdec] at hs
        exact hs
      rw [List.map_cons, if_neg he, List.find?_cons, hdec]
      exact ih hrest

theorem dictGet_dictSet (d : List (ℕ × ℕ)) (k v : ℕ) :
    dictGet (dictSet d k v) k = some v := by
  unfold dictGet dictSet
  by_cases h : (d.find? fun e => decide (e.1 = k)).isSome
  · rw [if_pos h, find?_map_dictSet k v d h]
    rfl
  · rw [if_neg h, List.find?_append,
      Option.not_isSome_iff_eq_none.mp h]
    simp [List.find?_cons]

/-- C9 (amended): the mask cache stores by value — `store_mask` retains a
`.clone()` of the source tensor, so a later in-place mutation of the
caller's source leaves the cached entry unchanged and a later lookup still
returns the contents as they were at store time. -/
theorem store_mask_by_value (c : AttentionCache) (key srcRef : ℕ) (h : Heap) (v : List ℚ)
    (hsrc : srcRef < h.cells.length) :
    ((c.store_mask key srcRef h).1.get_mask_cached key
        ((c.store_mask key srcRef h).2.write srcRef v)).1 = some (h.read srcRef) := by
  unfold AttentionCache.store_mask AttentionCache.get_mask_cached Heap.alloc
  simp only
  rw [dictGet_dictSet]
  simp only
  congr 1
  unfold Heap.write Heap.read
  simp only
  rw [List.set_append, if_pos hsrc,
    List.getD_append_right _ _ _ _ (le_of_eq (List.length_set h.cells srcRef v))]
  simp [List.length_set]

/-- Witness for `store_mask_by_value`: one cell, stored, then mutated. -/
theorem store_mask_by_value_witness :
    ((((AttentionCache.init 100).store_mask 7 0 ⟨[[(1 : ℚ)]]⟩).1.get_mask_cached 7
        ((((AttentionCache.init 100).store_mask 7 0 ⟨[[(1 : ℚ)]]⟩).2).write 0 [2])).1)
      = some (Heap.read ⟨[[(1 : ℚ)]]⟩ 0) :=
  store_mask_by_value (AttentionCache.init 100) 7 0 ⟨[[(1 : ℚ)]]⟩ [2] (by decide)

/-- C9 counterexample: the conditioning cache stores the caller's tensor
by reference (`store_conditioning` performs no `.clone()`, line 148), so
mutating the source after the store changes what a later lookup of the
same key observes: it reads `[2]`, not the value `[1]` present at store
time. -/
theorem store_conditioning_not_by_value :
    (Option.map (Heap.read (Heap.write ⟨[[(1 : ℚ)]]⟩ 0 [2]))
        (((AttentionCache.init 100).store_conditioning 7 0).get_conditioning_cached 7).1
      = some [2]) ∧
    Heap.read ⟨[[(1 : ℚ)]]⟩ 0 = [1] ∧ ¬ ([(2 : ℚ)] = [(1 : ℚ)]) := by
  decide

/-! ### Slice, mask and region-sum lemmas for the output walk -/

theorem flatten_replicate_length {α : Type} (n : ℕ) (l : List α) :
    ((List.replicate n l).flatten).length = n * l.length := by
  simp [List.length_flatten, List.map_replicate, List.sum_replicate, smul_eq_mul]

theorem tileTokens_one (m : Mat) : tileTokens 1 m = m := by
  simp [tileTokens]

theorem sliceRows_length {t : Tensor3} {pos len : ℕ} (h : pos + len ≤ t.length) :
    (sliceRows t pos len).length = len := by
  simp [sliceRows, List.length_take, List.length_drop]
  omega

theorem sliceRows_getD {t : Tensor3} {pos len idx : ℕ} (hidx : idx < len)
    (h : pos + len ≤ t.length) :
    (sliceRows t pos len).getD idx [] = t.getD (pos + idx) [] := by
  have h1 : idx < (sliceRows t pos len).length := by rw [sliceRows_length h]; exact hidx
  have h2 : pos + idx < t.length := by omega
  rw [List.getD_eq_getElem _ _ h1, List.getD_eq_getElem _ _ h2]
  simp only [sliceRows]
  rw [List.getElem_take, List.getElem_drop]

theorem mulMask_getD (rows : Tensor3) (md : List (List ℚ)) (idx : ℕ) :
    (mulMask rows md).getD idx [] = maskRow (md.getD idx []) (rows.getD idx []) := by
  by_cases hr : idx < rows.length
  · by_cases hm : idx < md.length
    · have hz : idx < (mulMask rows md).length := by
        simp [mulMask, List.length_zipWith]; omega
      rw [List.getD_eq_getElem _ _ hz, List.getD_eq_getElem _ _ hr, List.getD_eq_getElem _ _ hm]
      simp [mulMask, List.getElem_zipWith]
    · have hz : (mulMask rows md).length ≤ idx := by
        simp [mulMask, List.length_zipWith]; omega
      rw [List.getD_eq_default _ _ hz, List.getD_eq_default _ _ (by omega : md.length ≤ idx)]
      simp [maskRow]
  · have hz : (mulMask rows md).length ≤ idx := by
      simp [mulMask, List.length_zipWith]; omega
    rw [List.getD_eq_default _ _ hz, List.getD_eq_default _ _ (by omega : rows.length ≤ idx)]
    simp [maskRow]

theorem sumRegions_length (n b : ℕ) (rows : Tensor3) :
    (sumRegions n b rows).length = b := by
  simp [sumRegions]

theorem sumRegions_getD (n B : ℕ) (rows : Tensor3) {b : ℕ} (hb : b < B) :
    (sumRegions n B rows).getD b [] =
      matListSum ((List.range n).map fun r => rows.getD (r * B + b) []) := by
  have h1 : b < (sumRegions n B rows).length := by rw [sumRegions_length]; exact hb
  rw [List.getD_eq_getElem _ _ h1]
  simp only [sumRegions, List.getElem_map, List.getElem_range]

theorem rolesRows_cons (numConds B r : ℕ) (rest : List ℕ) :
    rolesRows numConds B (r :: rest) =
      (if r = 1 then B else numConds * B) + rolesRows numConds B rest := by
  simp [rolesRows]

theorem rolesOffset_cons_succ (numConds B r : ℕ) (rest : List ℕ) (i : ℕ) :
    rolesOffset numConds B (r :: rest) (i + 1) =
      (if r = 1 then B else numConds * B) + rolesOffset numConds B rest i := by
  simp [rolesOffset, List.take_succ_cons, rolesRows_cons]

theorem rolesOffset_zero (numConds B : ℕ) (roles : List ℕ) :
    rolesOffset numConds B roles 0 = 0 := by
  simp [rolesOffset, rolesRows]

/-! ### The output walk -/

theorem outWalk_shift (numConds B : ℕ) (md : List (List ℚ)) :
    ∀ (roles : List ℕ) (a out : Tensor3) (p : ℕ),
      outWalk numConds B md roles (a.length + p) (a ++ out) =
        outWalk numConds B md roles p out := by
  intro roles
  induction roles with
  | nil => intro a out p; rfl
  | cons r rest ih =>
    intro a out p
    have hslice : ∀ len, sliceRows (a ++ out) (a.length + p) len = sliceRows out p len := by
      intro len
      simp [sliceRows, List.drop_append]
    show (if r = 1 then _ else _) = (if r = 1 then _ else _)
    by_cases hr : r = 1
    · simp only [outWalk, if_pos hr, hslice]
      rw [Nat.add_assoc, ih a out (p + B)]
    · simp only [outWalk, if_neg hr, hslice]
      rw [Nat.add_assoc, ih a out (p + numConds * B)]

theorem outWalk_length (numConds B : ℕ) (md : List (List ℚ)) :
    ∀ (roles : List ℕ) (pos : ℕ) (out : Tensor3),
      pos + rolesRows numConds B roles ≤ out.length →
      (outWalk numConds B md roles pos out).length = roles.length * B := by
  intro roles
  induction roles with
  | nil => intro pos out _; simp [outWalk]
  | cons r rest ih =>
    intro pos out hle
    rw [rolesRows_cons] at hle
    by_cases hr : r = 1
    · rw [if_pos hr] at hle
      simp only [outWalk, if_pos hr, List.length_append]
      rw [sliceRows_length (by omega), ih (pos + B) out (by omega)]
      rw [List.length_cons, Nat.succ_mul]
      omega
    · rw [if_neg hr] at hle
      simp only [outWalk, if_neg hr, List.length_append]
      rw [sumRegions_length, ih (pos + numConds * B) out (by omega)]
      rw [List.length_cons, Nat.succ_mul]
      omega

theorem outWalk_getD (numConds B : ℕ) (md : List (List ℚ)) :
    ∀ (roles : List ℕ) (pos : ℕ) (out : Tensor3) (i b : ℕ),
      i < roles.length → b < B →
      pos + rolesRows numConds B roles ≤ out.length →
      (outWalk numConds B md roles pos out).getD (i * B + b) [] =
        (if roles.getD i 0 = 1 then
          out.getD (pos + rolesOffset numConds B roles i + b) []
        else
          matListSum ((List.range numConds).map fun n =>
            maskRow (md.getD (n * B + b) [])
              (out.getD (pos + rolesOffset numConds B roles i + n * B + b) []))) := by
  intro roles
  induction roles with
  | nil => intro pos out i b hi _ _; cases hi
  | cons r rest ih =>
    intro pos out i b hi hb hle
    rw [rolesRows_cons] at hle
    cases i with
    | zero =>
      rw [rolesOffset_zero]
      by_cases hr : r = 1
      · rw [if_pos hr] at hle
        simp only [outWalk, if_pos hr]
        have hlen : b < (sliceRows out pos B).length := by
          rw [sliceRows_length (by omega)]; exact hb
        rw [Nat.zero_mul, Nat.zero_add, List.getD_append _ _ _ _ hlen,
          sliceRows_getD hb (by omega)]
        simp [hr, Nat.add_zero]
      · rw [if_neg hr] at hle
        simp only [outWalk, if_neg hr]
        have hlen : b < (sumRegions numConds B
            (mulMask (sliceRows out pos (numConds * B)) md)).length := by
          rw [sumRegions_length]; exact hb
        rw [Nat.zero_mul, Nat.zero_add, List.getD_append _ _ _ _ hlen,
          sumRegions_getD _ _ _ hb]
        have hgd : (r :: rest).getD 0 0 = r := rfl
        rw [hgd, if_neg hr]
        congr 1
        apply List.map_congr_left
        intro n hn
        have hnlt : n < numConds := List.mem_range.mp hn
        have hidx : n * B + b < numConds * B := by
          calc n * B + b < n * B + B := by omega
          _ = (n + 1) * B := by rw [Nat.succ_mul]
          _ ≤ numConds * B := Nat.mul_le_mul_right B hnlt
        rw [mulMask_getD, sliceRows_getD hidx (by omega)]
        rw [Nat.add_zero, ← Nat.add_assoc]
    | succ i2 =>
      have hchunk : ∀ len, len = B →
          ((i2 + 1) * B + b) - len = i2 * B + b := by
        intro len hlen; rw [hlen, Nat.succ_mul]; omega
      have hi2 : i2 < rest.length := by simpa using hi
      by_cases hr : r = 1
      · rw [if_pos hr] at hle
        simp only [outWalk, if_pos hr]
        have hlen : (sliceRows out pos B).length = B := sliceRows_length (by omega)
        rw [List.getD_append_right _ _ _ _ (by rw [hlen, Nat.succ_mul]; omega),
          hchunk _ hlen, ih (pos + B) out i2 b hi2 hb (by omega)]
        rw [rolesOffset_cons_succ, if_pos hr]
        have hgd : (r :: rest).getD (i2 + 1) 0 = rest.getD i2 0 := rfl
        rw [hgd]
        by_cases hgr : rest.getD i2 0 = 1
        · rw [if_pos hgr, if_pos hgr]
          congr 2
          omega
        · rw [if_neg hgr, if_neg hgr]
          congr 1
          apply List.map_congr_left
          intro n _
          congr 2
          omega
      · rw [if_neg hr] at hle
        simp only [outWalk, if_neg hr]
        have hlen : (sumRegions numConds B
            (mulMask (sliceRows out pos (numConds * B)) md)).length = B :=
          sumRegions_length _ _ _
        rw [List.getD_append_right _ _ _ _ (by rw [hlen, Nat.succ_mul]; omega),
          hchunk _ hlen, ih (pos + numConds * B) out i2 b hi2 hb (by omega)]
        rw [rolesOffset_cons_succ, if_neg hr]
        have hgd : (r :: rest).getD (i2 + 1) 0 = rest.getD i2 0 := rfl
        rw [hgd]
        by_cases hgr : rest.getD i2 0 = 1
        · rw [if_pos hgr, if_pos hgr]
          congr 2
          omega
        · rw [if_neg hgr, if_neg hgr]
          congr 1
          apply List.map_congr_left
          intro n _
          congr 2
          omega

/-- C1: the post-attention recombination returns exactly
`num_chunks · batchSize` batch rows — the batch size of the original,
pre-expansion input.  Row `i·batchSize + b` of the result is: for an
unconditional chunk `i`, the corresponding row of `out` copied through
unchanged; for a conditional chunk `i`, the sum over the `numConds`
regions of the rows of `out` belonging to chunk `i`, each multiplied
element-wise by its row of the downsampled mask stack (the reshape to
`(numConds, batchSize, tokens, channels)` followed by `sum(dim=0)`),
chunks concatenated in original order. -/
theorem post_attention_recombination (numConds B : ℕ) (mask : List Grid) (sh : List ℕ)
    (roles : List ℕ) (out : Tensor3)
    (hout : rolesRows numConds B roles ≤ out.length) :
    (attn2_output_patch numConds B mask roles sh out).length = roles.length * B ∧
    ∀ i b, i < roles.length → b < B →
      (attn2_output_patch numConds B mask roles sh out).getD (i * B + b) [] =
        (if roles.getD i 0 = 1 then
          out.getD (rolesOffset numConds B roles i + b) []
        else
          matListSum ((List.range numConds).map fun n =>
            maskRow ((get_mask mask B (dim1 out) sh).getD (n * B + b) [])
              (out.getD (rolesOffset numConds B roles i + n * B + b) []))) := by
  constructor
  · unfold attn2_output_patch
    exact outWalk_length numConds B _ roles 0 out (by omega)
  · intro i b hi hb
    unfold attn2_output_patch
    have h := outWalk_getD numConds B (get_mask mask B (dim1 out) sh) roles 0 out i b hi hb
      (by omega)
    rw [h]
    simp only [Nat.zero_add]

/-- Witness for `post_attention_recombination`: one conditional chunk of
two regions with batch size 1. -/
theorem post_attention_recombination_witness :
    (attn2_output_patch 2 1 [[[(1 : ℚ)]], [[(1 : ℚ)]]] [0] [2, 4, 1, 1]
        [[[(5 : ℚ)]], [[(7 : ℚ)]]]).length = List.length [0] * 1 :=
  (post_attention_recombination 2 1 [[[(1 : ℚ)]], [[(1 : ℚ)]]] [2, 4, 1, 1] [0]
    [[[(5 : ℚ)]], [[(7 : ℚ)]]] (by decide)).1

/-! ### Chunking and the pre-attention build -/

theorem tchunk_cs {t : Tensor3} {n B : ℕ} (h : t.length = n * B) (hn : 0 < n) :
    (t.length + n - 1) / n = B := by
  have h1 : t.length + n - 1 = (n - 1) + n * B := by omega
  rw [h1, Nat.add_mul_div_left _ _ hn, Nat.div_eq_of_lt (by omega)]
  omega

theorem tchunk_eq {t : Tensor3} {n B : ℕ} (h : t.length = n * B) (hn : 0 < n) :
    tchunk n t = (List.range n).map fun i => sliceRows t (i * B) B := by
  unfold tchunk
  rw [tchunk_cs h hn]
  rfl

theorem mem_tchunk_length {t : Tensor3} {n B : ℕ} (h : t.length = n * B) (hn : 0 < n) :
    ∀ c ∈ tchunk n t, c.length = B := by
  intro c hc
  rw [tchunk_eq h hn] at hc
  rcases List.mem_map.mp hc with ⟨i, hi, hci⟩
  have hilt : i < n := List.mem_range.mp hi
  subst hci
  exact sliceRows_length (by nlinarith)

theorem tchunk_getD {t : Tensor3} {n B : ℕ} (h : t.length = n * B) (hn : 0 < n)
    {i : ℕ} (hi : i < n) :
    (tchunk n t).getD i [] = sliceRows t (i * B) B := by
  rw [tchunk_eq h hn]
  have hlen : i < ((List.range n).map fun j => sliceRows t (j * B) B).length := by
    simp [hi]
  rw [List.getD_eq_getElem _ _ hlen]
  simp

theorem buildQK_lengths (nC L tk B : ℕ) (condsT : Tensor3)
    (hcT : condsT.length = (nC - 1) * B) (hnC : 0 < nC) :
    ∀ lst : List (ℕ × Tensor3 × Tensor3),
      (∀ e ∈ lst, e.2.1.length = B ∧ e.2.2.length = B) →
      (buildQK nC L tk condsT lst).1.length = rolesRows nC B (lst.map fun e => e.1) ∧
      (buildQK nC L tk condsT lst).2.length = rolesRows nC B (lst.map fun e => e.1) := by
  intro lst
  induction lst with
  | nil => intro _; simp [buildQK, rolesRows]
  | cons e rest ih =>
    intro hall
    obtain ⟨r, qc, kc⟩ := e
    have he := hall (r, qc, kc) (List.mem_cons_self _ _)
    have hrest := ih fun x hx => hall x (List.mem_cons_of_mem _ hx)
    have hsub : (nC - 1) * B = nC * B - B := by
      rw [Nat.sub_mul, Nat.one_mul]
    have hBle : B ≤ nC * B := Nat.le_mul_of_pos_left B hnC
    by_cases hr : r = 1
    · simp only [buildQK, if_pos hr, List.map_cons, rolesRows_cons, if_pos hr]
      constructor
      · simp only [List.length_append, hrest.1, he.1]
      · simp only [List.length_append, List.length_map, hrest.2, he.2]
    · simp only [buildQK, if_neg hr, List.map_cons, rolesRows_cons, if_neg hr]
      constructor
      · simp only [List.length_append, hrest.1, flatten_replicate_length, he.1]
      · simp only [List.length_append, List.length_map, hrest.2, he.2, hcT]
        omega

theorem sliceRows_append {out extra : Tensor3} {pos len : ℕ} (h : pos + len ≤ out.length) :
    sliceRows (out ++ extra) pos len = sliceRows out pos len := by
  apply List.ext_getElem
  · rw [sliceRows_length (by simp; omega), sliceRows_length h]
  · intro i h1 h2
    have hi : i < len := by rw [sliceRows_length h] at h2; exact h2
    have hg1 : (sliceRows (out ++ extra) pos len).getD i [] =
        (out ++ extra).getD (pos + i) [] := sliceRows_getD hi (by simp; omega)
    have hg2 : (sliceRows out pos len).getD i [] = out.getD (pos + i) [] :=
      sliceRows_getD hi h
    have happ : (out ++ extra).getD (pos + i) [] = out.getD (pos + i) [] :=
      List.getD_append _ _ _ _ (by omega)
    rw [List.getD_eq_getElem _ _ h1] at hg1
    rw [List.getD_eq_getElem _ _ h2] at hg2
    rw [hg1, hg2, happ]

theorem outWalk_ignore (numConds B : ℕ) (md : List (List ℚ)) :
    ∀ (roles : List ℕ) (pos : ℕ) (out extra : Tensor3),
      pos + rolesRows numConds B roles ≤ out.length →
      outWalk numConds B md roles pos (out ++ extra) =
        outWalk numConds B md roles pos out := by
  intro roles
  induction roles with
  | nil => intro pos out extra _; rfl
  | cons r rest ih =>
    intro pos out extra hle
    rw [rolesRows_cons] at hle
    by_cases hr : r = 1
    · rw [if_pos hr] at hle
      simp only [outWalk, if_pos hr]
      rw [sliceRows_append (by omega), ih (pos + B) out extra (by omega)]
    · rw [if_neg hr] at hle
      simp only [outWalk, if_neg hr]
      rw [sliceRows_append (by omega), ih (pos + numConds * B) out extra (by omega)]

theorem tchunk_len (n : ℕ) (t : Tensor3) : (tchunk n t).length = n := by
  simp [tchunk]

theorem zip_map_fst {α β : Type} :
    ∀ (l1 : List α) (l2 : List β), l1.length ≤ l2.length →
      ((l1.zip l2).map fun e => e.1) = l1 := by
  intro l1
  induction l1 with
  | nil => intro l2 _; rfl
  | cons a rest ih =>
    intro l2 hle
    cases l2 with
    | nil => simp at hle
    | cons b rest2 =>
      simp only [List.zip_cons_cons, List.map_cons]
      rw [ih rest2 (by simpa using hle)]

theorem conds_tensor_length (conds : List Mat) (B L : ℕ) :
    (conds_tensor conds B L).length = conds.length * B := by
  unfold conds_tensor
  rw [List.length_flatMap]
  have h2 : List.map (List.length ∘ fun c => List.replicate B (tileTokens (L / c.length) c)) conds
      = conds.map fun _ => B := by
    apply List.map_congr_left
    intro c _
    simp [Function.comp, List.length_replicate]
  rw [h2, sum_map_const_nat]

/-- C7: when the expanded batch count is odd, `attn2_patch` pads the
returned query and key with exactly one all-zero batch row to an even
count, and the matching post-attention recombination never reads that pad
row: its output is computed from the role chunks alone, so appending any
rows beyond them (in particular the image of the pad row under the
primitive) leaves the recombined output unchanged. -/
theorem odd_batch_padding (conds : List Mat) (roles : List ℕ) (q k : Tensor3) (B : ℕ)
    (hroles : roles ≠ []) (hB : 0 < B)
    (hq : q.length = roles.length * B) (hk : k.length = roles.length * B)
    (hodd : rolesRows (conds.length + 1) B roles % 2 = 1) :
    (attn2_patch conds roles q k).1.length = rolesRows (conds.length + 1) B roles + 1 ∧
    (attn2_patch conds roles q k).1.length % 2 = 0 ∧
    (attn2_patch conds roles q k).1.getLast? = some (zeroMat (dim1 q) (dim2 q)) ∧
    (attn2_patch conds roles q k).2.getLast? =
      some (zeroMat
        (dim1 k * lcm_for_list (conds.map List.length ++ [dim1 k]) / dim1 k) (dim2 k)) ∧
    (∀ (numConds2 : ℕ) (mask : List Grid) (sh : List ℕ) (out extra : Tensor3),
      out.length = rolesRows numConds2 B roles → out ≠ [] →
      attn2_output_patch numConds2 B mask roles sh (out ++ extra) =
        attn2_output_patch numConds2 B mask roles sh out) := by
  have hnlen : 0 < roles.length := List.length_pos.mpr hroles
  have hBdef : q.length / roles.length = B := by
    rw [hq]; exact Nat.mul_div_cancel_left B hnlen
  have hzlen : roles.length ≤ ((tchunk roles.length q).zip (tchunk roles.length k)).length := by
    rw [List.length_zip, tchunk_len, tchunk_len]
    omega
  have hmapfst : ((roles.zip ((tchunk roles.length q).zip (tchunk roles.length k))).map
      fun e => e.1) = roles := zip_map_fst _ _ hzlen
  have hall : ∀ e ∈ roles.zip ((tchunk roles.length q).zip (tchunk roles.length k)),
      e.2.1.length = B ∧ e.2.2.length = B := by
    intro e he
    obtain ⟨r, qc, kc⟩ := e
    have h2 := (List.of_mem_zip he).2
    have h3 := List.of_mem_zip h2
    exact ⟨mem_tchunk_length hq hnlen qc h3.1, mem_tchunk_length hk hnlen kc h3.2⟩
  have hcT : (conds_tensor conds B
      (lcm_for_list (conds.map List.length ++ [dim1 k]))).length =
      (conds.length + 1 - 1) * B := by
    rw [conds_tensor_length, Nat.add_sub_cancel]
  have hlen := (buildQK_lengths (conds.length + 1)
    (lcm_for_list (conds.map List.length ++ [dim1 k])) (dim1 k) B
    (conds_tensor conds B (lcm_for_list (conds.map List.length ++ [dim1 k])))
    hcT (by omega)
    (roles.zip ((tchunk roles.length q).zip (tchunk roles.length k))) hall)
  rw [hmapfst] at hlen
  have hcond : (buildQK (conds.length + 1)
      (lcm_for_list (conds.map List.length ++ [dim1 k])) (dim1 k)
      (conds_tensor conds B (lcm_for_list (conds.map List.length ++ [dim1 k])))
      (roles.zip ((tchunk roles.length q).zip (tchunk roles.length k)))).1.length % 2 = 1 := by
    rw [hlen.1]; exact hodd
  have hpatch : attn2_patch conds roles q k =
      ((buildQK (conds.length + 1)
          (lcm_for_list (conds.map List.length ++ [dim1 k])) (dim1 k)
          (conds_tensor conds B (lcm_for_list (conds.map List.length ++ [dim1 k])))
          (roles.zip ((tchunk roles.length q).zip (tchunk roles.length k)))).1
        ++ [zeroMat (dim1 q) (dim2 q)],
       (buildQK (conds.length + 1)
          (lcm_for_list (conds.map List.length ++ [dim1 k])) (dim1 k)
          (conds_tensor conds B (lcm_for_list (conds.map List.length ++ [dim1 k])))
          (roles.zip ((tchunk roles.length q).zip (tchunk roles.length k)))).2
        ++ [zeroMat
          (dim1 k * lcm_for_list (conds.map List.length ++ [dim1 k]) / dim1 k) (dim2 k)]) := by
    simp only [attn2_patch, hBdef]
    rw [if_pos hcond]
  refine ⟨?_, ?_, ?_, ?_, ?_⟩
  · rw [hpatch]
    simp only [List.length_append, List.length_cons, List.length_nil, hlen.1]
  · rw [hpatch]
    simp only [List.length_append, List.length_cons, List.length_nil, hlen.1]
    omega
  · rw [hpatch]
    exact List.getLast?_concat _
  · rw [hpatch]
    exact List.getLast?_concat _
  · intro numConds2 mask sh out extra hlen2 hne
    unfold attn2_output_patch
    have hd : dim1 (out ++ extra) = dim1 out := by
      cases out with
      | nil => exact absurd rfl hne
      | cons a l => rfl
    rw [hd, outWalk_ignore numConds2 B _ roles 0 out extra (by omega)]

/-- Witness for `odd_batch_padding`: one conditional and one unconditional
chunk of batch size 1 with two regions expand to 3 rows, padded to 4. -/
theorem odd_batch_padding_witness :
    (attn2_patch [[[(7 : ℚ)]]] [0, 1] [[[(1 : ℚ)]], [[(2 : ℚ)]]]
        [[[(3 : ℚ)]], [[(4 : ℚ)]]]).1.length = rolesRows 2 1 [0, 1] + 1 :=
  (odd_batch_padding [[[(7 : ℚ)]]] [0, 1] [[[(1 : ℚ)]], [[(2 : ℚ)]]]
    [[[(3 : ℚ)]], [[(4 : ℚ)]]] 1 (by decide) (by decide) (by decide) (by decide)
    (by decide)).1

/-! ### Helper lemmas for the round-trip analysis -/

theorem replicate_two_flatten {α : Type} (l : List α) :
    (List.replicate 2 l).flatten = l ++ l := by
  show (l :: List.replicate 1 l).flatten = l ++ l
  simp [List.replicate]

theorem map_tileTokens_one (kc : Tensor3) : kc.map (tileTokens 1) = kc := by
  have h : kc.map (tileTokens 1) = kc.map id := by
    apply List.map_congr_left
    intro m _
    exact tileTokens_one m
  rw [h, List.map_id]

theorem matListSum_pair (a b : Mat) : matListSum [a, b] = matAdd a b := rfl

theorem zipWith_getD {α β γ : Type} (f : α → β → γ) (l1 : List α) (l2 : List β)
    (d1 : α) (d2 : β) (d3 : γ) {i : ℕ} (h1 : i < l1.length) (h2 : i < l2.length) :
    (List.zipWith f l1 l2).getD i d3 = f (l1.getD i d1) (l2.getD i d2) := by
  have hz : i < (List.zipWith f l1 l2).length := by rw [List.length_zipWith]; omega
  rw [List.getD_eq_getElem _ _ hz, List.getD_eq_getElem _ _ h1, List.getD_eq_getElem _ _ h2,
    List.getElem_zipWith]

theorem zipWith_scale_add (x y : ℚ) (h : x + y = 1) :
    ∀ tok : List ℚ,
      List.zipWith (· + ·) (tok.map fun z => x * z) (tok.map fun z => y * z) = tok := by
  intro tok
  induction tok with
  | nil => rfl
  | cons z rest ih =>
    simp only [List.map_cons, List.zipWith_cons_cons, ih]
    rw [← add_mul, h, one_mul]

theorem maskRow_add_one (w0 w1 : List ℚ) (a : Mat)
    (hlen0 : a.length ≤ w0.length) (hlen1 : a.length ≤ w1.length)
    (hsum : ∀ t, t < a.length → w0.getD t 0 + w1.getD t 0 = 1) :
    matAdd (maskRow w0 a) (maskRow w1 a) = a := by
  induction a generalizing w0 w1 with
  | nil =>
    cases w0 <;> cases w1 <;> rfl
  | cons tok rest ih =>
    cases w0 with
    | nil => simp at hlen0
    | cons x w0r =>
      cases w1 with
      | nil => simp at hlen1
      | cons y w1r =>
        simp only [maskRow, List.zipWith_cons_cons, matAdd] at *
        have hxy : x + y = 1 := by
          have := hsum 0 (by simp)
          simpa using this
        rw [zipWith_scale_add x y hxy tok]
        have hrest : List.zipWith (List.zipWith (· + ·))
            (List.zipWith (fun c row => row.map fun z => c * z) w0r rest)
            (List.zipWith (fun c row => row.map fun z => c * z) w1r rest) = rest := by
          have := ih w0r w1r (by simpa using hlen0) (by simpa using hlen1)
            (fun t ht => by
              have := hsum (t + 1) (by simpa using Nat.succ_lt_succ ht)
              simpa using this)
          simpa [maskRow, matAdd] using this
        rw [hrest]

theorem dim1_eq_getD (t : Tensor3) : dim1 t = (t.getD 0 []).length := by
  cases t <;> rfl

theorem rolesRows_pos {numConds B : ℕ} {roles : List ℕ} (hroles : roles ≠ [])
    (hB : 0 < B) (hnC : 0 < numConds) : 0 < rolesRows numConds B roles := by
  cases roles with
  | nil => exact absurd rfl hroles
  | cons r rest =>
    rw [rolesRows_cons]
    by_cases hr : r = 1
    · rw [if_pos hr]; omega
    · rw [if_neg hr]
      have : 0 < numConds * B := Nat.mul_pos hnC hB
      omega

theorem gridEntry_uniform {H W : ℕ} (v : ℚ) {i j : ℕ} (hi : i < H) (hj : j < W) :
    gridEntry (uniformGrid H W v) i j = v := by
  unfold gridEntry uniformGrid
  have h1 : i < (List.replicate H (List.replicate W v)).length := by simp [hi]
  rw [List.getD_eq_getElem _ _ h1, List.getElem_replicate]
  have h2 : j < (List.replicate W v).length := by simp [hj]
  rw [List.getD_eq_getElem _ _ h2, List.getElem_replicate]

theorem regular_uniform (H W : ℕ) (v : ℚ) : regular (uniformGrid H W v) H W := by
  constructor
  · simp [uniformGrid]
  · intro i hi
    unfold uniformGrid
    have h1 : i < (List.replicate H (List.replicate W v)).length := by simp [hi]
    rw [List.getD_eq_getElem _ _ h1, List.getElem_replicate]
    simp

theorem regular_divGrid {m s : Grid} {H W : ℕ} (hm : regular m H W) (hs : regular s H W) :
    regular (List.zipWith (List.zipWith fun x t => x / t) m s) H W := by
  obtain ⟨hm1, hm2⟩ := hm
  obtain ⟨hs1, hs2⟩ := hs
  constructor
  · rw [List.length_zipWith]; omega
  · intro i hi
    have him : i < m.length := by omega
    have his : i < s.length := by omega
    have hiz : i < (List.zipWith (List.zipWith fun x t => x / t) m s).length := by
      rw [List.length_zipWith]; omega
    rw [List.getD_eq_getElem _ _ hiz, List.getElem_zipWith, List.length_zipWith,
      ← List.getD_eq_getElem m [] him, ← List.getD_eq_getElem s [] his,
      hm2 i hi, hs2 i hi]
    omega

theorem resample_flatten_length (m : Grid) (srcH srcW r c : ℕ) :
    ((resampleNearest m srcH srcW r c).flatten).length = r * c := by
  unfold resampleNearest
  rw [List.length_flatten, List.map_map]
  have h : (List.map (List.length ∘ fun a => List.map
      (fun b => (m.getD (a * srcH / r) []).getD (b * srcW / c) 0) (List.range c))
      (List.range r)) = (List.range r).map fun _ => c := by
    apply List.map_congr_left
    intro a _
    simp [Function.comp]
  rw [h, sum_map_const_nat, List.length_range]

theorem flatten_grid_getD :
    ∀ (R : ℕ) (g : ℕ → ℕ → ℚ) (C t : ℕ), t < R * C →
      ((((List.range R).map fun r => (List.range C).map fun c => g r c).flatten).getD t 0) =
        g (t / C) (t % C) := by
  intro R
  induction R with
  | zero => intro g C t ht; simp at ht
  | succ R2 ih =>
    intro g C t ht
    rw [List.range_succ_eq_map, List.map_cons, List.flatten_cons]
    by_cases htC : t < C
    · rw [List.getD_append _ _ _ _ (by simp [htC])]
      have h1 : t < ((List.range C).map fun c => g 0 c).length := by simp [htC]
      rw [List.getD_eq_getElem _ _ h1, List.getElem_map, List.getElem_range,
        Nat.div_eq_of_lt htC, Nat.mod_eq_of_lt htC]
    · have hC : 0 < C := by
        rcases Nat.eq_zero_or_pos C with h | h
        · subst h; simp at ht
        · exact h
      rw [List.getD_append_right _ _ _ _ (by simp; omega)]
      rw [List.map_map]
      have hmap : (List.map ((fun r => List.map (fun c => g r c) (List.range C)) ∘ Nat.succ)
          (List.range R2))
          = (List.range R2).map fun r => (List.range C).map fun c => g (r + 1) c := by
        apply List.map_congr_left
        intro r _
        rfl
      rw [hmap]
      have hlen : ((List.range C).map fun c => g 0 c).length = C := by simp
      rw [hlen]
      have ht2 : t - C < R2 * C := by rw [Nat.succ_mul] at ht; omega
      rw [ih (fun r c => g (r + 1) c) C (t - C) ht2]
      have hu : t = (t - C) + C := by omega
      have hdiv : t / C = (t - C) / C + 1 := by
        conv_lhs => rw [hu]
        rw [Nat.add_div_right _ hC]
      have hmod : t % C = (t - C) % C := by
        conv_lhs => rw [hu]
        rw [Nat.add_mod_right]
      rw [hdiv, hmod]

theorem flatten_slices :
    ∀ (n : ℕ) (t : Tensor3) (B : ℕ), t.length = n * B →
      (((List.range n).map fun i => sliceRows t (i * B) B)).flatten = t := by
  intro n
  induction n with
  | zero =>
    intro t B h
    simp at h
    subst h
    rfl
  | succ n2 ih =>
    intro t B h
    rw [List.range_succ_eq_map, List.map_cons, List.flatten_cons, List.map_map]
    have hmap : (List.map ((fun i => sliceRows t (i * B) B) ∘ Nat.succ) (List.range n2))
        = (List.range n2).map fun i => sliceRows (t.drop B) (i * B) B := by
      apply List.map_congr_left
      intro i _
      simp only [Function.comp]
      unfold sliceRows
      rw [List.drop_drop]
      have : i * B + B = Nat.succ i * B := by rw [Nat.succ_mul]
      rw [Nat.add_comm B (i * B), this]
    rw [hmap, ih (t.drop B) B (by rw [List.length_drop, Nat.succ_mul] at *; omega)]
    show sliceRows t (0 * B) B ++ t.drop B = t
    unfold sliceRows
    rw [Nat.zero_mul, List.drop_zero, List.take_append_drop]

theorem tchunk_flatten {t : Tensor3} {n B : ℕ} (h : t.length = n * B) (hn : 0 < n) :
    (tchunk n t).flatten = t := by
  rw [tchunk_eq h hn]
  exact flatten_slices n t B h

theorem flatMap_zip_zipWith (f : Mat → Mat → Mat) :
    ∀ (l1 : List ℕ) (l2 l3 : List Tensor3),
      l1.length = l2.length → l2.length = l3.length →
      (∀ p ∈ l2.zip l3, p.1.length = p.2.length) →
      ((l1.zip (l2.zip l3)).flatMap fun e => List.zipWith f e.2.1 e.2.2) =
        List.zipWith f l2.flatten l3.flatten := by
  intro l1
  induction l1 with
  | nil =>
    intro l2 l3 h12 h23 _
    have h2 : l2 = [] := List.eq_nil_of_length_eq_zero h12.symm
    subst h2
    have h3 : l3 = [] := List.eq_nil_of_length_eq_zero h23.symm
    subst h3
    rfl
  | cons r rest ih =>
    intro l2 l3 h12 h23 hall
    cases l2 with
    | nil => simp at h12
    | cons qc l2r =>
      cases l3 with
      | nil => simp at h23
      | cons kc l3r =>
        simp only [List.zip_cons_cons, List.flatMap_cons, List.flatten_cons]
        rw [List.zipWith_append f qc l2r.flatten kc l3r.flatten
          (hall (qc, kc) (by rw [List.zip_cons_cons]; exact List.mem_cons_self _ _)),
          ih l2r l3r (by simpa using h12) (by simpa using h23)
            fun p hp => hall p (by rw [List.zip_cons_cons]; exact List.mem_cons_of_mem _ hp)]

theorem buildQK_cons_uncond (nC L tk : ℕ) (cT : Tensor3) (qc kc : Tensor3)
    (rest : List (ℕ × Tensor3 × Tensor3)) :
    buildQK nC L tk cT ((1, qc, kc) :: rest) =
      (qc ++ (buildQK nC L tk cT rest).1,
       kc.map (tileTokens (L / tk)) ++ (buildQK nC L tk cT rest).2) := by
  simp [buildQK]

theorem buildQK_cons_cond (nC L tk : ℕ) (cT : Tensor3) {r : ℕ} (hr : r ≠ 1)
    (qc kc : Tensor3) (rest : List (ℕ × Tensor3 × Tensor3)) :
    buildQK nC L tk cT ((r, qc, kc) :: rest) =
      ((List.replicate nC qc).flatten ++ (buildQK nC L tk cT rest).1,
       (kc.map (tileTokens (L / tk)) ++ cT) ++ (buildQK nC L tk cT rest).2) := by
  simp [buildQK, hr]

theorem list_ext_getD {α : Type} (d : α) {l1 l2 : List α} (hlen : l1.length = l2.length)
    (h : ∀ i, i < l1.length → l1.getD i d = l2.getD i d) : l1 = l2 := by
  apply List.ext_getElem hlen
  intro i h1 h2
  have hh := h i h1
  rwa [List.getD_eq_getElem _ _ h1, List.getD_eq_getElem _ _ h2] at hh

theorem roundtrip_core (f : Mat → Mat → Mat) (B T tk : ℕ) (c1 : Mat)
    (md : List (List ℚ)) (w0 w1 : List ℚ)
    (htk : 0 < tk)
    (hf : ∀ a b, (f a b).length = T)
    (hmd0 : ∀ b, b < B → md.getD b [] = w0)
    (hmd1 : ∀ b, b < B → md.getD (B + b) [] = w1)
    (hw0 : T ≤ w0.length) (hw1 : T ≤ w1.length)
    (hsum : ∀ t, t < T → w0.getD t 0 + w1.getD t 0 = 1) :
    ∀ (lst : List (ℕ × Tensor3 × Tensor3)) (extra : Tensor3),
      (∀ e ∈ lst, e.2.1.length = B ∧ e.2.2.length = B ∧
        (e.1 ≠ 1 → ∀ b, b < B → e.2.2.getD b [] = c1)) →
      outWalk 2 B md (lst.map fun e => e.1) 0
        (applyRowwise f (buildQK 2 tk tk (List.replicate B c1) lst).1
          (buildQK 2 tk tk (List.replicate B c1) lst).2 ++ extra) =
      lst.flatMap fun e => applyRowwise f e.2.1 e.2.2 := by
  intro lst
  induction lst with
  | nil => intro extra _; rfl
  | cons e rest ih =>
    intro extra hall
    obtain ⟨r, qc, kc⟩ := e
    obtain ⟨hqcB, hkcB, hcnd⟩ := hall (r, qc, kc) (List.mem_cons_self _ _)
    have hq2 : qc.length = B := hqcB
    have hk2 : kc.length = B := hkcB
    have hcnd2 : r ≠ 1 → ∀ b, b < B → kc.getD b [] = c1 := hcnd
    have hrest := fun x hx => hall x (List.mem_cons_of_mem _ hx)
    have hihx := ih extra hrest
    by_cases hr : r = 1
    · subst hr
      rw [buildQK_cons_uncond, Nat.div_self htk, map_tileTokens_one]
      have hsplit : applyRowwise f (qc ++ (buildQK 2 tk tk (List.replicate B c1) rest).1)
          (kc ++ (buildQK 2 tk tk (List.replicate B c1) rest).2) =
          applyRowwise f qc kc ++
            applyRowwise f (buildQK 2 tk tk (List.replicate B c1) rest).1
              (buildQK 2 tk tk (List.replicate B c1) rest).2 :=
        List.zipWith_append f qc _ kc _ (by rw [hq2, hk2])
      have hblock : (applyRowwise f qc kc).length = B := by
        simp [applyRowwise, List.length_zipWith, hq2, hk2]
      simp only [List.map_cons, List.flatMap_cons]
      show (if (1 : ℕ) = 1 then _ else _) = _
      rw [if_pos rfl, hsplit, List.append_assoc]
      congr 1
      · show sliceRows (applyRowwise f qc kc ++ _) 0 B = applyRowwise f qc kc
        unfold sliceRows
        rw [List.drop_zero, ← hblock, List.take_left]
      · have hpos : (0 : ℕ) + B = (applyRowwise f qc kc).length + 0 := by
          rw [hblock]; omega
        rw [hpos, outWalk_shift, hihx]
    · rw [buildQK_cons_cond 2 tk tk _ hr, Nat.div_self htk, map_tileTokens_one,
        replicate_two_flatten]
      have hsplit1 : applyRowwise f
          ((qc ++ qc) ++ (buildQK 2 tk tk (List.replicate B c1) rest).1)
          ((kc ++ List.replicate B c1) ++ (buildQK 2 tk tk (List.replicate B c1) rest).2) =
          applyRowwise f (qc ++ qc) (kc ++ List.replicate B c1) ++
            applyRowwise f (buildQK 2 tk tk (List.replicate B c1) rest).1
              (buildQK 2 tk tk (List.replicate B c1) rest).2 :=
        List.zipWith_append f _ _ _ _
          (by simp [hq2, hk2, List.length_replicate])
      have hsplit2 : applyRowwise f (qc ++ qc) (kc ++ List.replicate B c1) =
          applyRowwise f qc kc ++ applyRowwise f qc (List.replicate B c1) :=
        List.zipWith_append f qc qc kc _ (by rw [hq2, hk2])
      have hb1 : (applyRowwise f qc kc).length = B := by
        simp [applyRowwise, List.length_zipWith, hq2, hk2]
      have hb2 : (applyRowwise f qc (List.replicate B c1)).length = B := by
        simp [applyRowwise, List.length_zipWith, hq2, List.length_replicate]
      have hblock : (applyRowwise f (qc ++ qc) (kc ++ List.replicate B c1)).length = 2 * B := by
        rw [hsplit2, List.length_append, hb1, hb2]
        omega
      simp only [List.map_cons, List.flatMap_cons]
      show (if r = 1 then _ else _) = _
      rw [if_neg hr, hsplit1, List.append_assoc]
      congr 1
      · have hslice : sliceRows (applyRowwise f (qc ++ qc) (kc ++ List.replicate B c1) ++
            (applyRowwise f (buildQK 2 tk tk (List.replicate B c1) rest).1
              (buildQK 2 tk tk (List.replicate B c1) rest).2 ++ extra)) 0 (2 * B) =
            applyRowwise f (qc ++ qc) (kc ++ List.replicate B c1) := by
          unfold sliceRows
          rw [List.drop_zero, ← hblock, List.take_left]
        rw [hslice]
        apply list_ext_getD ([] : Mat)
        · rw [sumRegions_length, hb1]
        · intro b hb0
          rw [sumRegions_length] at hb0
          have hb : b < B := hb0
          have hqb : b < qc.length := by omega
          have hkb : b < kc.length := by omega
          rw [sumRegions_getD 2 B _ hb]
          have hrange2 : List.range 2 = [0, 1] := rfl
          rw [hrange2]
          simp only [List.map_cons, List.map_nil]
          rw [matListSum_pair, Nat.zero_mul, Nat.zero_add, Nat.one_mul]
          rw [mulMask_getD, mulMask_getD, hmd0 b hb, hmd1 b hb]
          have hget1 : (applyRowwise f (qc ++ qc) (kc ++ List.replicate B c1)).getD b [] =
              f (qc.getD b []) (kc.getD b []) := by
            rw [hsplit2, List.getD_append _ _ _ _ (by rw [hb1]; exact hb)]
            exact zipWith_getD f qc kc [] [] [] hqb hkb
          have hget2 : (applyRowwise f (qc ++ qc) (kc ++ List.replicate B c1)).getD (B + b) [] =
              f (qc.getD b []) c1 := by
            rw [hsplit2, List.getD_append_right _ _ _ _ (by rw [hb1]; omega)]
            rw [hb1, Nat.add_sub_cancel_left]
            show (List.zipWith f qc (List.replicate B c1)).getD b [] = f (qc.getD b []) c1
            rw [zipWith_getD f qc (List.replicate B c1) [] [] [] hqb
              (by rw [List.length_replicate]; exact hb)]
            congr 1
            rw [List.getD_eq_getElem _ _ (by rw [List.length_replicate]; exact hb),
              List.getElem_replicate]
          rw [hget1, hget2, hcnd2 hr b hb]
          have ha : (f (qc.getD b []) c1).length = T := hf _ _
          rw [maskRow_add_one w0 w1 _ (by omega) (by omega)
            (fun t ht => hsum t (by omega))]
          show f (qc.getD b []) c1 = (List.zipWith f qc kc).getD b []
          rw [zipWith_getD f qc kc [] [] [] hqb hkb, hcnd2 hr b hb]
      · have hpos : (0 : ℕ) + 2 * B =
            (applyRowwise f (qc ++ qc) (kc ++ List.replicate B c1)).length + 0 := by
          rw [hblock]; omega
        rw [hpos, outWalk_shift, hihx]

theorem stackSum_pair (m0 m1 : Grid) : stackSum [m0, m1] = addGrid m0 m1 := rfl

theorem roundtrip_mask_stage (m0 : Grid) (H W : ℕ) (hm0 : regular m0 H W)
    (hH : 0 < H) (hW : 0 < W)
    (hm0nonneg : ∀ i, i < H → ∀ j, j < W → 0 ≤ gridEntry m0 i j) :
    patch_unet_mask [m0, uniformGrid H W 1] = some (normalizeStack [m0, uniformGrid H W 1]) := by
  have hones := regular_uniform H W (1 : ℚ)
  have hsreg := regular_addGrid hm0 hones
  have hguard : coverageViolated [m0, uniformGrid H W 1] = false := by
    unfold coverageViolated
    rw [List.any_eq_false]
    intro row hrow
    rw [stackSum_pair] at hrow
    rcases List.mem_iff_getElem.mp hrow with ⟨i, hilt, hrowi⟩
    have hiH : i < H := by rw [← hsreg.1]; exact hilt
    rw [Bool.not_eq_true, List.any_eq_false]
    intro x hx
    rcases List.mem_iff_getElem.mp hx with ⟨j, hjlt, hxj⟩
    have hjW : j < W := by
      have := hsreg.2 i hiH
      rw [List.getD_eq_getElem _ _ hilt, hrowi] at this
      omega
    have hxval : x = gridEntry (addGrid m0 (uniformGrid H W 1)) i j := by
      unfold gridEntry
      rw [List.getD_eq_getElem _ _ hilt, hrowi, List.getD_eq_getElem _ _ hjlt, hxj]
    rw [gridEntry_addGrid hm0 hones hiH j, gridEntry_uniform 1 hiH hjW] at hxval
    have hnn := hm0nonneg i hiH j hjW
    simp only [decide_eq_true_eq]
    intro hle
    rw [hxval] at hle
    linarith
  unfold patch_unet_mask
  rw [hguard]
  rfl

theorem normalized_md_facts (m0 : Grid) (H W T B : ℕ) (sh : List ℕ)
    (hm0 : regular m0 H W) (hH : 0 < H) (hW : 0 < W)
    (hm0nonneg : ∀ i, i < H → ∀ j, j < W → 0 ≤ gridEntry m0 i j)
    (hsize : (downsampleSize T (sh.getD 2 0) (sh.getD 3 0)).1 *
        (downsampleSize T (sh.getD 2 0) (sh.getD 3 0)).2 = T) :
    ∃ w0 w1 : List ℚ,
      (∀ b, b < B →
        (get_mask (normalizeStack [m0, uniformGrid H W 1]) B T sh).getD b [] = w0) ∧
      (∀ b, b < B →
        (get_mask (normalizeStack [m0, uniformGrid H W 1]) B T sh).getD (B + b) [] = w1) ∧
      T ≤ w0.length ∧ T ≤ w1.length ∧
      (∀ t, t < T → w0.getD t 0 + w1.getD t 0 = 1) := by
  have hones := regular_uniform H W (1 : ℚ)
  have hsreg := regular_addGrid hm0 hones
  have hnm0reg := regular_divGrid hm0 hsreg
  have hnm1reg := regular_divGrid hones hsreg
  have hnorm : normalizeStack [m0, uniformGrid H W 1] =
      [List.zipWith (List.zipWith fun x t => x / t) m0 (addGrid m0 (uniformGrid H W 1)),
       List.zipWith (List.zipWith fun x t => x / t) (uniformGrid H W 1)
         (addGrid m0 (uniformGrid H W 1))] := rfl
  set nm0 := List.zipWith (List.zipWith fun x t => x / t) m0 (addGrid m0 (uniformGrid H W 1))
    with hnm0def
  set nm1 := List.zipWith (List.zipWith fun x t => x / t) (uniformGrid H W 1)
    (addGrid m0 (uniformGrid H W 1)) with hnm1def
  set r0 := (downsampleSize T (sh.getD 2 0) (sh.getD 3 0)).1 with hr0def
  set c0 := (downsampleSize T (sh.getD 2 0) (sh.getD 3 0)).2 with hc0def
  have hnm0ne : nm0 ≠ [] := by
    intro hcon
    have := hnm0reg.1
    rw [hcon] at this
    simp at this
    omega
  have hgm : get_mask (normalizeStack [m0, uniformGrid H W 1]) B T sh =
      List.replicate B ((resampleNearest nm0 H W r0 c0).flatten) ++
        (List.replicate B ((resampleNearest nm1 H W r0 c0).flatten) ++ []) := by
    rw [hnorm]
    simp only [get_mask]
    have hsrcH : ([nm0, nm1].headD ([] : Grid)).length = H := hnm0reg.1
    have hsrcW : (([nm0, nm1].headD ([] : Grid)).headD ([] : List ℚ)).length = W := by
      show (nm0.headD []).length = W
      cases hc : nm0 with
      | nil => exact absurd hc hnm0ne
      | cons a l =>
        have := hnm0reg.2 0 hH
        rw [hc] at this
        exact this
    rw [hsrcH, hsrcW, ← hr0def, ← hc0def]
    rfl
  refine ⟨(resampleNearest nm0 H W r0 c0).flatten, (resampleNearest nm1 H W r0 c0).flatten,
    ?_, ?_, ?_, ?_, ?_⟩
  · intro b hb
    rw [hgm, List.getD_append _ _ _ _ (by rw [List.length_replicate]; exact hb),
      List.getD_eq_getElem _ _ (by rw [List.length_replicate]; exact hb),
      List.getElem_replicate]
  · intro b hb
    rw [hgm, List.getD_append_right _ _ _ _ (by rw [List.length_replicate]; omega)]
    rw [List.length_replicate, Nat.add_sub_cancel_left]
    rw [List.getD_append _ _ _ _ (by rw [List.length_replicate]; exact hb),
      List.getD_eq_getElem _ _ (by rw [List.length_replicate]; exact hb),
      List.getElem_replicate]
  · rw [resample_flatten_length, hsize]
  · rw [resample_flatten_length, hsize]
  · intro t ht
    have hT : 0 < T := by omega
    have hr0pos : 0 < r0 := by
      rcases Nat.eq_zero_or_pos r0 with h | h
      · rw [h] at hsize
        simp at hsize
        omega
      · exact h
    have hc0pos : 0 < c0 := by
      rcases Nat.eq_zero_or_pos c0 with h | h
      · rw [h] at hsize
        simp at hsize
        omega
      · exact h
    have htlt : t < r0 * c0 := by rw [hsize]; exact ht
    have hw0t : ((resampleNearest nm0 H W r0 c0).flatten).getD t 0 =
        gridEntry nm0 (t / c0 * H / r0) (t % c0 * W / c0) :=
      flatten_grid_getD r0 (fun r c => (nm0.getD (r * H / r0) []).getD (c * W / c0) 0) c0 t htlt
    have hw1t : ((resampleNearest nm1 H W r0 c0).flatten).getD t 0 =
        gridEntry nm1 (t / c0 * H / r0) (t % c0 * W / c0) :=
      flatten_grid_getD r0 (fun r c => (nm1.getD (r * H / r0) []).getD (c * W / c0) 0) c0 t htlt
    have hdivlt : t / c0 < r0 := (Nat.div_lt_iff_lt_mul hc0pos).mpr htlt
    have hpi : t / c0 * H / r0 < H := by
      apply (Nat.div_lt_iff_lt_mul hr0pos).mpr
      have h1 : t / c0 * H < r0 * H := mul_lt_mul_of_pos_right hdivlt hH
      have h2 : r0 * H = H * r0 := Nat.mul_comm r0 H
      omega
    have hmodlt : t % c0 < c0 := Nat.mod_lt _ hc0pos
    have hpj : t % c0 * W / c0 < W := by
      apply (Nat.div_lt_iff_lt_mul hc0pos).mpr
      have h1 : t % c0 * W < c0 * W := mul_lt_mul_of_pos_right hmodlt hW
      have h2 : c0 * W = W * c0 := Nat.mul_comm c0 W
      omega
    rw [hw0t, hw1t, hnm0def, hnm1def,
      gridEntry_divGrid hm0 hsreg hpi hpj,
      gridEntry_divGrid hones hsreg hpi hpj,
      gridEntry_addGrid hm0 hones hpi (t % c0 * W / c0),
      gridEntry_uniform 1 hpi hpj]
    have hnn := hm0nonneg (t / c0 * H / r0) hpi (t % c0 * W / c0) hpj
    rw [div_add_div_same, div_self (by linarith)]

theorem zip_getD {α β : Type} (l1 : List α) (l2 : List β) (d1 : α) (d2 : β) {i : ℕ}
    (h1 : i < l1.length) (h2 : i < l2.length) :
    (l1.zip l2).getD i (d1, d2) = (l1.getD i d1, l2.getD i d2) := by
  have hz : i < (l1.zip l2).length := by rw [List.length_zip]; omega
  rw [List.getD_eq_getElem _ _ hz, List.getElem_zip, List.getD_eq_getElem _ _ h1,
    List.getD_eq_getElem _ _ h2]

/-- C2 (amended): the round-trip identity holds for one additional region
with a uniform all-1.0 mask *provided the region's conditioning coincides
with the native key*: when the additional region's embedding has the
native key token length and equals every conditional-chunk row of the key,
composing the pre-attention rewrite, any batch-row-wise opaque primitive
of uniform output token count, and the post-attention recombination
returns exactly the primitive applied to the original query/key/value.
(The counterexample shows the identity fails without this proviso.) -/
theorem roundtrip_identity_amended
    (f : Mat → Mat → Mat) (m0 : Grid) (c1 : Mat) (roles : List ℕ) (sh : List ℕ)
    (q k : Tensor3) (B H W T : ℕ)
    (hroles : roles ≠ []) (hB : 0 < B)
    (hq : q.length = roles.length * B) (hk : k.length = roles.length * B)
    (hm0 : regular m0 H W) (hH : 0 < H) (hW : 0 < W)
    (hm0nonneg : ∀ i, i < H → ∀ j, j < W → 0 ≤ gridEntry m0 i j)
    (htk : dim1 k = c1.length) (ht1 : 0 < c1.length)
    (hcond : ∀ i, i < roles.length → roles.getD i 0 ≠ 1 →
      ∀ b, b < B → k.getD (i * B + b) [] = c1)
    (hf : ∀ a b, (f a b).length = T)
    (hsize : (downsampleSize T (sh.getD 2 0) (sh.getD 3 0)).1 *
        (downsampleSize T (sh.getD 2 0) (sh.getD 3 0)).2 = T) :
    fullComposite f [m0, uniformGrid H W 1] [c1] roles sh q k =
      some (applyRowwise f q k) := by
  have hn : 0 < roles.length := List.length_pos.mpr hroles
  have hBdef : q.length / roles.length = B := by
    rw [hq]; exact Nat.mul_div_cancel_left B hn
  have hL : lcm_for_list (List.map List.length [c1] ++ [c1.length]) = c1.length := by
    show Nat.lcm c1.length (Nat.lcm c1.length 1) = c1.length
    rw [Nat.lcm_one_right, Nat.lcm_self]
  have hcondsT : conds_tensor [c1] B c1.length = List.replicate B c1 := by
    unfold conds_tensor
    simp only [List.flatMap_cons, List.flatMap_nil, List.append_nil]
    rw [Nat.div_self ht1, tileTokens_one]
  set lst := roles.zip ((tchunk roles.length q).zip (tchunk roles.length k)) with hlstdef
  have hzlen : roles.length ≤ ((tchunk roles.length q).zip (tchunk roles.length k)).length := by
    rw [List.length_zip, tchunk_len, tchunk_len]
    omega
  have hmapfst : (lst.map fun e => e.1) = roles := zip_map_fst _ _ hzlen
  have hlstlen : lst.length = roles.length := by
    rw [hlstdef, List.length_zip, List.length_zip, tchunk_len, tchunk_len]
    omega
  have hlst : ∀ e ∈ lst, e.2.1.length = B ∧ e.2.2.length = B ∧
      (e.1 ≠ 1 → ∀ b, b < B → e.2.2.getD b [] = c1) := by
    intro e he
    rcases List.mem_iff_getElem.mp he with ⟨i, hilt, hei⟩
    have hiroles : i < roles.length := by rw [hlstlen] at hilt; exact hilt
    have hqchunks : i < (tchunk roles.length q).length := by rw [tchunk_len]; exact hiroles
    have hkchunks : i < (tchunk roles.length k).length := by rw [tchunk_len]; exact hiroles
    have hzchunks : i < ((tchunk roles.length q).zip (tchunk roles.length k)).length := by
      rw [List.length_zip]; omega
    have hd : lst.getD i (0, ([], [])) = e := by
      rw [List.getD_eq_getElem _ _ hilt, hei]
    rw [hlstdef, zip_getD _ _ 0 ([], []) hiroles hzchunks,
      zip_getD _ _ [] [] hqchunks hkchunks,
      tchunk_getD hq hn hiroles, tchunk_getD hk hn hiroles] at hd
    have hbound : i * B + B ≤ roles.length * B := by
      have h3 : i + 1 ≤ roles.length := hiroles
      calc i * B + B = (i + 1) * B := by rw [Nat.succ_mul]
      _ ≤ roles.length * B := Nat.mul_le_mul_right B h3
    rw [← hd]
    refine ⟨?_, ?_, ?_⟩
    · exact sliceRows_length (by rw [hq]; exact hbound)
    · exact sliceRows_length (by rw [hk]; exact hbound)
    · intro hr1 b hb
      rw [sliceRows_getD hb (by rw [hk]; exact hbound)]
      exact hcond i hiroles hr1 b hb
  have hcT2 : (List.replicate B c1 : Tensor3).length = (2 - 1) * B := by
    rw [List.length_replicate]
    omega
  have hlens := buildQK_lengths 2 c1.length c1.length B (List.replicate B c1) hcT2
    (by omega) lst fun e he => ⟨(hlst e he).1, (hlst e he).2.1⟩
  rw [hmapfst] at hlens
  have hflat : (lst.flatMap fun e => applyRowwise f e.2.1 e.2.2) = applyRowwise f q k := by
    rw [hlstdef]
    have h4 := flatMap_zip_zipWith f roles (tchunk roles.length q) (tchunk roles.length k)
      (by rw [tchunk_len]) (by rw [tchunk_len, tchunk_len])
      (by
        intro p hp
        have h5 := List.of_mem_zip hp
        rw [mem_tchunk_length hq hn p.1 h5.1, mem_tchunk_length hk hn p.2 h5.2])
    show ((roles.zip ((tchunk roles.length q).zip (tchunk roles.length k))).flatMap
        fun e => List.zipWith f e.2.1 e.2.2) = List.zipWith f q k
    rw [h4, tchunk_flatten hq hn, tchunk_flatten hk hn]
  obtain ⟨w0, w1, hmd0, hmd1, hw0, hw1, hsum⟩ :=
    normalized_md_facts m0 H W T B sh hm0 hH hW hm0nonneg hsize
  have hrrpos : 0 < rolesRows 2 B roles := rolesRows_pos hroles hB (by omega)
  have hcorelen : (applyRowwise f
      (buildQK 2 c1.length c1.length (List.replicate B c1) lst).1
      (buildQK 2 c1.length c1.length (List.replicate B c1) lst).2).length =
      rolesRows 2 B roles := by
    rw [applyRowwise, List.length_zipWith, hlens.1, hlens.2]
    omega
  have hcoreget : (applyRowwise f
      (buildQK 2 c1.length c1.length (List.replicate B c1) lst).1
      (buildQK 2 c1.length c1.length (List.replicate B c1) lst).2).getD 0 [] =
      f ((buildQK 2 c1.length c1.length (List.replicate B c1) lst).1.getD 0 [])
        ((buildQK 2 c1.length c1.length (List.replicate B c1) lst).2.getD 0 []) :=
    zipWith_getD f _ _ [] [] [] (by rw [hlens.1]; omega) (by rw [hlens.2]; omega)
  have hmain : ∀ extra : Tensor3,
      dim1 (applyRowwise f
        (buildQK 2 c1.length c1.length (List.replicate B c1) lst).1
        (buildQK 2 c1.length c1.length (List.replicate B c1) lst).2 ++ extra) = T := by
    intro extra
    rw [dim1_eq_getD, List.getD_append _ _ _ _ (by rw [hcorelen]; omega), hcoreget]
    exact hf _ _
  have hwalk : ∀ extra : Tensor3,
      attn2_output_patch 2 B (normalizeStack [m0, uniformGrid H W 1]) roles sh
        (applyRowwise f
          (buildQK 2 c1.length c1.length (List.replicate B c1) lst).1
          (buildQK 2 c1.length c1.length (List.replicate B c1) lst).2 ++ extra) =
      applyRowwise f q k := by
    intro extra
    unfold attn2_output_patch
    rw [hmain extra, ← hmapfst]
    rw [roundtrip_core f B T c1.length c1
      (get_mask (normalizeStack [m0, uniformGrid H W 1]) B T sh) w0 w1
      ht1 hf hmd0 hmd1 hw0 hw1 hsum lst extra hlst]
    exact hflat
  have hcomposite : fullComposite f [m0, uniformGrid H W 1] [c1] roles sh q k =
      some (attn2_output_patch 2 B (normalizeStack [m0, uniformGrid H W 1]) roles sh
        (applyRowwise f (attn2_patch [c1] roles q k).1 (attn2_patch [c1] roles q k).2)) := by
    unfold fullComposite
    rw [roundtrip_mask_stage m0 H W hm0 hH hW hm0nonneg, hBdef]
    rfl
  rw [hcomposite]
  have hnum : (List.length ([c1] : List Mat) + 1) = 2 := rfl
  have hpatchpre : attn2_patch [c1] roles q k =
      (if (buildQK 2 c1.length c1.length (List.replicate B c1) lst).1.length % 2 = 1 then
        ((buildQK 2 c1.length c1.length (List.replicate B c1) lst).1 ++
          [zeroMat (dim1 q) (dim2 q)],
         (buildQK 2 c1.length c1.length (List.replicate B c1) lst).2 ++
          [zeroMat (c1.length * c1.length / c1.length) (dim2 k)])
      else buildQK 2 c1.length c1.length (List.replicate B c1) lst) := by
    simp only [attn2_patch, hBdef, htk, hL, hcondsT, hnum, ← hlstdef]
  by_cases hodd : (buildQK 2 c1.length c1.length (List.replicate B c1) lst).1.length % 2 = 1
  · rw [hpatchpre, if_pos hodd]
    have hsplitpad : applyRowwise f
        ((buildQK 2 c1.length c1.length (List.replicate B c1) lst).1 ++
          [zeroMat (dim1 q) (dim2 q)])
        ((buildQK 2 c1.length c1.length (List.replicate B c1) lst).2 ++
          [zeroMat (c1.length * c1.length / c1.length) (dim2 k)]) =
        applyRowwise f (buildQK 2 c1.length c1.length (List.replicate B c1) lst).1
          (buildQK 2 c1.length c1.length (List.replicate B c1) lst).2 ++
          [f (zeroMat (dim1 q) (dim2 q))
            (zeroMat (c1.length * c1.length / c1.length) (dim2 k))] :=
      List.zipWith_append f _ _ _ _ (by rw [hlens.1, hlens.2])
    rw [hsplitpad, hwalk]
  · rw [hpatchpre, if_neg hodd]
    have hnil : applyRowwise f (buildQK 2 c1.length c1.length (List.replicate B c1) lst).1
        (buildQK 2 c1.length c1.length (List.replicate B c1) lst).2 =
        applyRowwise f (buildQK 2 c1.length c1.length (List.replicate B c1) lst).1
          (buildQK 2 c1.length c1.length (List.replicate B c1) lst).2 ++ [] :=
      (List.append_nil _).symm
    rw [hnil, hwalk]

/-- C2 counterexample: with one additional region whose mask is uniformly
1.0 but whose conditioning (`[[7]]`) differs from the native key
(`[[5]]`), the composite returns the mask-weighted blend `[[6]]` while the
primitive applied directly to the original query/key/value returns
`[[5]]` — so the round-trip identity does not hold as stated for every
opaque primitive and every input. -/
theorem roundtrip_identity_counterexample :
    fullComposite (fun a b => b) [[[(1 : ℚ)]], [[(1 : ℚ)]]] [[[(7 : ℚ)]]] [0] [2, 4, 1, 1]
        [[[(1 : ℚ)]]] [[[(5 : ℚ)]]] = some [[[(6 : ℚ)]]] ∧
    applyRowwise (fun a b => b) [[[(1 : ℚ)]]] [[[(5 : ℚ)]]] = [[[(5 : ℚ)]]] ∧
    ¬ (some [[[(6 : ℚ)]]] = some ([[[(5 : ℚ)]]] : Tensor3)) := by
  refine ⟨?_, rfl, by decide⟩
  decide

/-- Witness for `roundtrip_identity_amended`: a single conditional chunk
whose key row equals the additional region's conditioning. -/
theorem roundtrip_identity_amended_witness :
    fullComposite (fun a b => [[(9 : ℚ)]]) [[[(0 : ℚ)]], uniformGrid 1 1 1] [[[(3 : ℚ)]]] [0]
        [2, 4, 1, 1] [[[(2 : ℚ)]]] [[[(3 : ℚ)]]] =
      some (applyRowwise (fun a b => [[(9 : ℚ)]]) [[[(2 : ℚ)]]] [[[(3 : ℚ)]]]) :=
  roundtrip_identity_amended (fun a b => [[(9 : ℚ)]]) [[(0 : ℚ)]] [[(3 : ℚ)]] [0] [2, 4, 1, 1]
    [[[(2 : ℚ)]]] [[[(3 : ℚ)]]] 1 1 1 1 (by decide) (by decide) (by decide) (by decide)
    (by decide) (by decide) (by decide) (by decide) (by decide) (by decide) (by decide)
    (fun a b => rfl) (by decide)
